import Mathlib

/-!
Verification development for the conda-mirror selection-and-synchronization
engine (`conda_mirror/conda_mirror.py`).

The Python source is shallowly embedded: dictionaries become association
lists (`List (String × _)`) preserving insertion order, Python sets of
filenames become sorted duplicate-free `List String` values, fallible code
returns `Except`, and the external collaborators (the conda `VersionSpec` /
`BuildNumberMatch` constraint matchers, which the source imports from
`conda` or from the repository's `versionspec` module, neither of which is
part of the embedded source tree) are modelled from the specification.
Recursions that are not structural carry explicit fuel whose sufficiency
is argued (and for the closure loop, proved) alongside, so that every
definition evaluates inside the kernel.
-/

deriving instance DecidableEq for Except

namespace CondaMirror

/-! ### Character-list string primitives

Re-implemented over `List Char` (rather than the built-in `String`
functions) so that all definitions reduce under kernel evaluation. -/

/-- Characters Python's `str.split()` / `str.rstrip()` treat as whitespace. -/
def isPyWs (c : Char) : Bool :=
  c = ' ' || c = '\t' || c = '\n' || c = '\r' || c = '\x0b' || c = '\x0c'

/-- Lexicographic order on char lists by codepoint. -/
def charListLt : List Char → List Char → Bool
  | [], [] => false
  | [], _ :: _ => true
  | _ :: _, [] => false
  | a :: as, b :: bs => a < b || (a = b && charListLt as bs)

/-- Python `a < b` on strings. -/
def strLtB (a b : String) : Bool := charListLt a.data b.data

/-- Three-way lexicographic comparison of char lists. -/
def charListCmp : List Char → List Char → Ordering
  | [], [] => .eq
  | [], _ :: _ => .lt
  | _ :: _, [] => .gt
  | a :: as, b :: bs =>
    if a < b then .lt else if b < a then .gt else charListCmp as bs

def strCmp (a b : String) : Ordering := charListCmp a.data b.data

/-- Split a char list at every occurrence of a separator character, like
Python `s.split(sep)` (so `[]` yields `[[]]`). -/
def splitOnCh (sep : Char) : List Char → List (List Char)
  | [] => [[]]
  | c :: rest =>
    if c = sep then [] :: splitOnCh sep rest
    else
      match splitOnCh sep rest with
      | [] => [[c]]
      | g :: gs => (c :: g) :: gs

def strSplitCh (sep : Char) (s : String) : List String :=
  (splitOnCh sep s.data).map String.mk

/-- Drop the first `n` characters (Python `s[n:]`). -/
def strDropN (s : String) (n : Nat) : String := String.mk (s.data.drop n)

/-- Drop the last `n` characters (Python `s[:-n]`). -/
def strDropRightN (s : String) (n : Nat) : String :=
  String.mk (s.data.take (s.data.length - n))

/-- Python `s.startswith(pre)`. -/
def strStarts (pre s : String) : Bool := pre.data.isPrefixOf s.data

/-- Python `s.endswith(suf)`. -/
def strEnds (suf s : String) : Bool := suf.data.isSuffixOf s.data

/-- Does `sub` occur as a contiguous substring? -/
def containsSub (sub : List Char) : List Char → Bool
  | [] => sub.isPrefixOf []
  | c :: rest => sub.isPrefixOf (c :: rest) || containsSub sub rest

/-- Decimal digits to a natural number. -/
def digitsToNat (l : List Char) : Nat :=
  l.foldl (fun a c => 10 * a + (c.toNat - 48)) 0

/-- Python `s.split(maxsplit=1)`: strip leading whitespace, cut the first
whitespace-delimited token, strip whitespace before the remainder.  Returns
`[]` for an all-whitespace string, a one-element list when there is no
remainder, and two elements otherwise. -/
def pysplitWs1 (s : String) : List String :=
  let l := s.data.dropWhile isPyWs
  match l with
  | [] => []
  | _ =>
    let tok := l.takeWhile (fun c => !isPyWs c)
    let rest := (l.dropWhile (fun c => !isPyWs c)).dropWhile isPyWs
    match rest with
    | [] => [String.mk tok]
    | _ => [String.mk tok, String.mk rest]

/-- Python `s.split(" ", maxsplit=1)`: cut at the first literal space. -/
def pysplitSpace1 (s : String) : List String :=
  let (a, b) := s.data.span (fun c => c ≠ ' ')
  match b with
  | [] => [s]
  | _ :: rest => [String.mk a, String.mk rest]

/-- Python `s.strip(chars)`. -/
def pyStrip (chars : String) (s : String) : String :=
  String.mk (((s.data.dropWhile chars.data.contains).reverse.dropWhile
    chars.data.contains).reverse)

/-- Python `s.lower()` (ASCII range, which is all the repository compares). -/
def pyLower (s : String) : String := String.mk (s.data.map Char.toLower)

/-- The characters of the `VERSION_SPEC_CHARS` regex `[<>=^$!]`. -/
def specChars : List Char := ['<', '>', '=', '^', '$', '!']

/-- True when `VERSION_SPEC_CHARS.search(pattern)` finds a match. -/
def containsSpecChar (s : String) : Bool := s.data.any specChars.contains

/-! ### `fnmatch` glob matching -/

/-- Scan for the `]` closing a bracket class; `none` when there is none
(in which case `fnmatch` treats the `[` as a literal). -/
def findClassClose : List Char → Option (List Char × List Char)
  | [] => none
  | c :: rest =>
    if c = ']' then some ([], rest)
    else
      match findClassClose rest with
      | none => none
      | some (cls, after) => some (c :: cls, after)

/-- Split off a bracket class: handles the leading `!` negation and a `]`
in first position being literal.  Returns (negated, class chars, rest). -/
def splitClass (l : List Char) : Option (Bool × List Char × List Char) :=
  let neg := l.head? = some '!'
  let l1 := if neg then l.tail else l
  let firstLit := l1.head? = some ']'
  let l2 := if firstLit then l1.tail else l1
  match findClassClose l2 with
  | none => none
  | some (cls, after) =>
    some (neg, (if firstLit then [']'] else []) ++ cls, after)

/-- Membership in a bracket-class body, with `a-z` ranges. -/
def charInClass : List Char → Char → Bool
  | a :: '-' :: b :: rest, c =>
    if rest = [] && b = ']' then (a = c) || (b = '-')
    else (a ≤ c && c ≤ b) || charInClass rest c
  | a :: rest, c => (a = c) || charInClass rest c
  | [], _ => false

/-- Fueled core of glob matching.  Every recursive call strictly decreases
`p.length + s.length` (by `splitClass_length` for the class case), so fuel
`p.length + s.length + 1` — as supplied by `globMatch` — never runs out. -/
def globMatchF : Nat → List Char → List Char → Bool
  | 0, _, _ => false
  | _ + 1, [], [] => true
  | _ + 1, [], _ :: _ => false
  | fuel + 1, '*' :: p, s =>
    globMatchF fuel p s ||
      (match s with
       | [] => false
       | _ :: s' => globMatchF fuel ('*' :: p) s')
  | _ + 1, '?' :: _, [] => false
  | fuel + 1, '?' :: p, _ :: s => globMatchF fuel p s
  | fuel + 1, '[' :: p, s =>
    (match splitClass p with
     | some (neg, cls, p') =>
       (match s with
        | [] => false
        | c :: s' => (charInClass cls c != neg) && globMatchF fuel p' s')
     | none =>
       (match s with
        | [] => false
        | c :: s' => (c = '[') && globMatchF fuel p s'))
  | _ + 1, _ :: _, [] => false
  | fuel + 1, c :: p, d :: s => (c = d) && globMatchF fuel p s

/-- Glob matching as in Python's `fnmatch.fnmatch` (case is already
normalized by the callers): `*`, `?`, bracket classes; an unterminated `[`
is a literal. -/
def globMatch (p s : List Char) : Bool :=
  globMatchF (p.length + s.length + 1) p s

/-! ### Constraint matchers (modelled from the spec)

The source imports `VersionSpec` and `BuildNumberMatch` either from `conda`
or from the repository's own `versionspec` module; neither is part of the
embedded source tree, so they are modelled from the specification here. -/

/-- A version component: numeric components compare numerically,
non-numeric ones lexicographically, and strings order before numbers. -/
inductive VComp
  | num (n : Nat)
  | str (s : String)
deriving DecidableEq

def natCmp (a b : Nat) : Ordering :=
  if a < b then .lt else if b < a then .gt else .eq

def vcompCmp : VComp → VComp → Ordering
  | .num a, .num b => natCmp a b
  | .str a, .str b => strCmp a b
  | .str _, .num _ => .lt
  | .num _, .str _ => .gt

/-- Modelled from the spec: parse a dotted version string into components. -/
def parseVer (s : String) : List VComp :=
  (strSplitCh '.' s).map fun comp =>
    if comp ≠ "" && comp.data.all Char.isDigit then .num (digitsToNat comp.data)
    else .str comp

/-- Compare an implicit run of numeric zeros against components. -/
def zerosCmpList : List VComp → Ordering
  | [] => .eq
  | b :: bs =>
    (match vcompCmp (.num 0) b with
     | .eq => zerosCmpList bs
     | o => o)

/-- Compare components against an implicit run of numeric zeros. -/
def listCmpZeros : List VComp → Ordering
  | [] => .eq
  | a :: as =>
    (match vcompCmp a (.num 0) with
     | .eq => listCmpZeros as
     | o => o)

/-- Compare two component lists, padding the shorter with numeric zeros. -/
def verCmpList : List VComp → List VComp → Ordering
  | [], bs => zerosCmpList bs
  | a :: as, [] =>
    (match vcompCmp a (.num 0) with
     | .eq => listCmpZeros as
     | o => o)
  | a :: as, b :: bs =>
    (match vcompCmp a b with
     | .eq => verCmpList as bs
     | o => o)

def verCmp (a b : String) : Ordering := verCmpList (parseVer a) (parseVer b)

/-- Does `version` start with the components of `rhs` (conda's `=X` and
`X.*` prefix semantics)? -/
def verHasPrefixOf (rhs version : String) : Bool :=
  (parseVer rhs).isPrefixOf (parseVer version)

/-- Modelled from the spec: one atomic version constraint, e.g. `>=2.0`,
`<3`, `==1.0`, `!=1.0`, `=1.0` (prefix), `1.0.*` (prefix), `*` or the
empty pattern (match anything), or a bare version (exact). -/
def verAtomMatch (atom version : String) : Bool :=
  if atom = "" || atom = "*" then true
  else if strStarts ">=" atom then (verCmp version (strDropN atom 2)) ≠ .lt
  else if strStarts "<=" atom then (verCmp version (strDropN atom 2)) ≠ .gt
  else if strStarts "==" atom then (verCmp version (strDropN atom 2)) = .eq
  else if strStarts "!=" atom then (verCmp version (strDropN atom 2)) ≠ .eq
  else if strStarts ">" atom then (verCmp version (strDropN atom 1)) = .gt
  else if strStarts "<" atom then (verCmp version (strDropN atom 1)) = .lt
  else if strStarts "=" atom then verHasPrefixOf (strDropN atom 1) version
  else if strEnds ".*" atom then verHasPrefixOf (strDropRightN atom 2) version
  else if strEnds "*" atom then verHasPrefixOf (strDropRightN atom 1) version
  else (verCmp version atom) = .eq

/-- Modelled from the spec: `VersionSpec(pattern).match(version)` — a
version-range expression; `|` separates alternatives, `,` conjoins. -/
def versionSpecMatch (pattern version : String) : Bool :=
  (strSplitCh '|' pattern).any fun alt =>
    (strSplitCh ',' alt).all fun atom => verAtomMatch atom version

/-- Fueled substring replacement; fuel `l.length + 1` (as supplied by
`replaceSub`) suffices since every call consumes at least one character. -/
def replaceSubF : Nat → List Char → List Char → List Char → List Char
  | 0, _, _, l => l
  | _, _, _, [] => []
  | fuel + 1, sub, repl, c :: rest =>
    if sub ≠ [] && sub.isPrefixOf (c :: rest) then
      repl ++ replaceSubF fuel sub repl (rest.drop (sub.length - 1))
    else c :: replaceSubF fuel sub repl rest

/-- Replace every occurrence of a (nonempty) substring. -/
def replaceSub (sub repl l : List Char) : List Char :=
  replaceSubF (l.length + 1) sub repl l

/-- Modelled from the spec: `BuildNumberMatch(pattern).match(build)` —
matches a build string or build number; the derived python-version filter
passes an anchored regex of the shape `^.*pyMN.*$`, which behaves as the
glob `*pyMN*`; otherwise operator patterns use the range matcher, and
anything else is a glob/exact match. -/
def buildNumberMatch (pattern v : String) : Bool :=
  if strStarts "^" pattern && strEnds "$" pattern then
    let inner := strDropRightN (strDropN pattern 1) 1
    globMatch (replaceSub ['.', '*'] ['*'] inner.data) v.data
  else if containsSpecChar pattern then
    versionSpecMatch pattern v
  else if pattern = "" then true
  else globMatch pattern.data v.data

/-! ### The matcher layer (`_glob_matcher`, `_version_matcher`,
`_build_matcher`, `DependsMatcher`) -/

/-- `_glob_matcher(pattern)` -/
def globMatcherF (pattern : String) : String → Bool :=
  fun v => globMatch pattern.data v.data

/-- `_version_matcher(pattern)`: throws away a build-string pattern after a
space, then matches with `VersionSpec`. -/
def versionMatcherF (pattern : String) : String → Bool :=
  fun v => versionSpecMatch ((strSplitCh ' ' pattern).headD "") v

/-- `_build_matcher(pattern)` -/
def buildMatcherF (pattern : String) : String → Bool :=
  fun v => buildNumberMatch pattern v

/-- `DependsMatcher(pattern)` applied to a package's version and build: an
empty pattern is replaced by `"*"`; the pattern is split at the first
space into a version part and an optional build part. -/
def dependsMatcher (pattern : String) (version build : String) : Bool :=
  let p := if pattern = "" then "*" else pattern
  let parts := pysplitSpace1 p
  let versionOk := versionMatcherF (parts.headD "") version
  let buildOk :=
    match parts with
    | [_, bp] => buildMatcherF bp build
    | _ => true
  versionOk && buildOk

/-! ### Python sets of filenames

Modelled as sorted duplicate-free `List String` values; the operations
below keep that canonical form, and all set claims are phrased through
membership, which is order-insensitive exactly as Python's sets are. -/

/-- Insert into a sorted duplicate-free list. -/
def sinsert (x : String) : List String → List String
  | [] => [x]
  | y :: ys =>
    if x = y then y :: ys
    else if strLtB x y then x :: y :: ys
    else y :: sinsert x ys

/-- `set.update(iterable)`. -/
def sunion (a : List String) (b : List String) : List String :=
  b.foldl (fun acc x => sinsert x acc) a

/-- `set.difference_update(other)`. -/
def sdiffL (a b : List String) : List String :=
  a.filter (fun x => !b.contains x)

/-! ### Package records and the repodata mapping -/

/-- One value of the `repodata['packages']` mapping: a Python dict.  Fields
that the engine reads are typed; anything else sits in `extra` (rendered to
strings, as `_match` compares `str(...)` forms anyway).  A `none` field
models an absent dict key. -/
structure PkgInfo where
  name : Option String := none
  version : Option String := none
  build : Option String := none
  buildNumber : Option Nat := none
  depends : Option (List String) := none
  license : Option String := none
  md5 : Option String := none
  size : Option Nat := none
  subdir : Option String := none
  extra : List (String × String) := []
deriving DecidableEq

instance : Inhabited PkgInfo := ⟨{}⟩

/-- Python `repr` of a list of strings, used for `str(depends)`. -/
def pyReprStrList (l : List String) : String :=
  "[" ++ String.intercalate ", " (l.map fun s => "'" ++ s ++ "'") ++ "]"

/-- `str(pkg_info.get(key, ""))`: the string rendering `_match` compares. -/
def pkgGet (info : PkgInfo) (key : String) : String :=
  if key = "name" then info.name.getD ""
  else if key = "version" then info.version.getD ""
  else if key = "build" then info.build.getD ""
  else if key = "build_number" then
    match info.buildNumber with | none => "" | some n => toString n
  else if key = "depends" then
    match info.depends with | none => "" | some l => pyReprStrList l
  else if key = "license" then info.license.getD ""
  else if key = "md5" then info.md5.getD ""
  else if key = "size" then
    match info.size with | none => "" | some n => toString n
  else if key = "subdir" then info.subdir.getD ""
  else ((info.extra.lookup key).getD "")

/-- The `repodata['packages']` mapping, in insertion order. -/
abbrev Packages := List (String × PkgInfo)

/-- A key→pattern rule as read from the configuration. -/
abbrev Rule := List (String × String)

/-- Python `dict(pairs)`: later values win, position of first insertion. -/
def pyDict [DecidableEq α] (l : List (α × β)) : List (α × β) :=
  l.foldl (fun acc p =>
    if acc.any (fun q => q.1 = p.1) then
      acc.map (fun q => if q.1 = p.1 then (q.1, p.2) else q)
    else acc ++ [p]) []

/-- Stable insertion into a key-sorted association list (element goes
before the first strictly larger key, after equal keys). -/
def insByKey (x : String × β) : List (String × β) → List (String × β)
  | [] => [x]
  | y :: ys => if strLtB y.1 x.1 then y :: insByKey x ys else x :: y :: ys

/-- Stable sort of an association list by key ascending, as Python's
`sorted(d.items())` (keys are distinct after `pyDict`). -/
def sortPairsByKey : List (String × β) → List (String × β)
  | [] => []
  | x :: xs => insByKey x (sortPairsByKey xs)

/-- Stable insertion for descending order. -/
def insByKeyDesc (x : String × β) : List (String × β) → List (String × β)
  | [] => [x]
  | y :: ys => if strLtB x.1 y.1 then y :: insByKeyDesc x ys else x :: y :: ys

/-- `sorted(d.items(), reverse=True)`. -/
def sortPairsByKeyDesc : List (String × β) → List (String × β)
  | [] => []
  | x :: xs => insByKeyDesc x (sortPairsByKeyDesc xs)

/-- `sorted(strings)`. -/
def sortStrings (l : List String) : List String :=
  (sortPairsByKey (l.map fun s => (s, ()))).map (·.1)

/-! ### `_match`: the selection predicate over one rule -/

/-- Insert-or-update into the `matchers` dict (`matchers[key] = m`). -/
def upsertMatcher (ms : List (String × (String → Bool))) (key : String)
    (m : String → Bool) : List (String × (String → Bool)) :=
  if ms.any (fun q => q.1 = key) then
    ms.map (fun q => if q.1 = key then (q.1, m) else q)
  else ms ++ [(key, m)]

/-- The first loop of `_match`: build the `matchers` dict from the sorted
(key, pattern) items.  A `version` pattern containing `[<>=^$!]` uses the
conda version matcher (with an optional build pattern after a space, which
installs an additional `build` matcher if none is present); a `build`
pattern containing those characters uses the build matcher; anything else
is a glob. -/
def buildMatchers (rule : Rule) : List (String × (String → Bool)) :=
  (sortPairsByKey (pyDict rule)).foldl (fun ms kp =>
    let key := pyLower kp.1
    let pat := pyLower kp.2
    if key = "version" && containsSpecChar pat then
      if pat.data.contains ' ' then
        let parts := pysplitSpace1 pat
        let vp := parts.headD ""
        let bp := parts.getD 1 ""
        let ms := if ms.any (fun q => q.1 = "build") then ms
                  else upsertMatcher ms "build" (buildMatcherF bp)
        upsertMatcher ms key (versionMatcherF vp)
      else upsertMatcher ms key (versionMatcherF pat)
    else if key = "build" && containsSpecChar pat then
      upsertMatcher ms key (buildMatcherF pat)
    else upsertMatcher ms key (globMatcherF pat)) []

/-- Strip `[<>=^$!]` then `.` from a python-version string, giving the
digits for the derived `^.*pyMN.*$` build filter. -/
def pyVersionDigits (pv : String) : String :=
  String.mk ((pv.data.filter (fun c => !specChars.contains c)).filter
    (fun c => c ≠ '.'))

/-- The `only_most_recent` reduction: walk matches in reverse lexicographic
filename order, keeping a record only when neither its `-`-split first
segment nor its last segment was already kept. -/
def mostRecentReduce (allPackages : Packages) (matched : Packages) :
    Packages :=
  (sortPairsByKeyDesc matched).foldl (fun kept nmInfo =>
    let nm := nmInfo.1
    let info := (allPackages.lookup nm).getD default
    let seg0 := fun (n : String) => (strSplitCh '-' n).headD ""
    let segLast := fun (n : String) => (strSplitCh '-' n).getLastD ""
    if (kept.all fun q => seg0 q.1 ≠ seg0 nm) &&
       (kept.all fun q => segLast q.1 ≠ segLast nm) then
      kept ++ [(nm, info)]
    else kept) []

/-- `_match(all_packages, key_pattern_dict, python_version,
only_most_recent)`: returns the sub-mapping of packages whose lowercased
rendered attributes satisfy every matcher, optionally filtered to builds
encoding the python version, optionally reduced to "most recent". -/
def matchModel (allPackages : Packages) (rule : Rule)
    (pythonVersion : Option String := none)
    (onlyMostRecent : Bool := false) : Packages :=
  let matchers := buildMatchers rule
  let matched := allPackages.filter fun ni =>
    matchers.all fun km => km.2 (pyLower (pkgGet ni.2 km.1))
  let matched :=
    match pythonVersion with
    | some pv =>
      if pv ≠ "" then
        let pat := "^.*py" ++ pyVersionDigits pv ++ ".*$"
        matched.filter fun ni => buildMatcherF pat (pyLower (pkgGet ni.2 "build"))
      else matched
    | none => matched
  if onlyMostRecent then mostRecentReduce allPackages matched else matched

/-- The filenames (dict keys) of a `_match` result, as
`list(_match(...))` produces in `main`. -/
def matchNames (allPackages : Packages) (rule : Rule)
    (pythonVersion : Option String := none)
    (onlyMostRecent : Bool := false) : List String :=
  (matchModel allPackages rule pythonVersion onlyMostRecent).map (·.1)

/-! ### `_restore_required_dependencies`: the dependency-closure resolver -/

/-- Leftmost maximal run matching `\d+(\.\d+)*` starting at a digit. -/
def digitsDotsF : Nat → List Char → List Char
  | 0, _ => []
  | _, [] => []
  | fuel + 1, l =>
    let ds := l.takeWhile Char.isDigit
    match l.drop ds.length with
    | '.' :: rest =>
      if (rest.headD 'x').isDigit then ds ++ '.' :: digitsDotsF fuel rest
      else ds
    | _ => ds

/-- `re.search(r"(\d+(\.\d+)*)", s)`: the leftmost match, `none` when the
string has no digit (in which case the source calls `.group()` on `None`
and an `AttributeError` escapes). -/
def findNumRun (s : String) : Option String :=
  let l := s.data.dropWhile (fun c => !c.isDigit)
  match l with
  | [] => none
  | _ => some (String.mk (digitsDotsF l.length l))

/-- The `only_most_recent` mangling of a dependency constraint: keep the
second comma-separated piece when there are several, drop `=`, `<`, `>`,
and extract the leading numeric run; raises (an uncaught
`AttributeError`) when no digits remain. -/
def mangleSpec (spec : String) : Except Unit String :=
  let vs := strSplitCh ',' spec
  let vs := if vs.length > 1 then vs.getD 1 "" else vs.headD ""
  let vs := String.mk (vs.data.filter fun c => !(['=', '<', '>'].contains c))
  match findNumRun vs with
  | none => .error ()
  | some s => .ok s

/-- Parse one entry of a `depends` list: `dep.split(maxsplit=1)` into a
name and a constraint; a `ValueError` (no whitespace-separated remainder)
is caught and yields the bare name with an empty constraint.  With
`only_most_recent` the constraint is mangled (which can raise). -/
def parseDepSpec (onlyMostRecent : Bool) (dep : String) :
    Except Unit (String × String) :=
  match pysplitWs1 dep with
  | [n, spec] =>
    if onlyMostRecent then (mangleSpec spec).map (fun s => (n, s))
    else .ok (n, spec)
  | _ => .ok (dep, "")

/-- `{all_packages.get(r, {}).get("name") for r in required}` restricted to
the real (non-`None`) names: membership tests against it are only ever for
actual strings. -/
def alreadyRequiredOf (allPackages : Packages) (required : List String) :
    List String :=
  required.filterMap fun r => (allPackages.lookup r).bind (·.name)

/-- Collate the dependency constraints of the current frontier by package
name, skipping dependencies whose name is already required. -/
def collectDepSpecs (allPackages : Packages) (alreadyRequired : List String)
    (onlyMostRecent : Bool) (cur : List String) :
    Except Unit (List (String × String)) :=
  cur.foldlM (fun acc req => do
    let deps := ((allPackages.lookup req).bind (·.depends)).getD []
    deps.foldlM (fun acc dep => do
      let ns ← parseDepSpec onlyMostRecent dep
      if alreadyRequired.contains ns.1 then pure acc
      else pure (acc ++ [ns])) acc) []

/-- Does some collated constraint for this excluded filename's package name
accept its (version, build)? -/
def matchesAnySpec (allPackages : Packages) (specs : List (String × String))
    (k : String) : Bool :=
  let info := (allPackages.lookup k).getD default
  match info.name with
  | none => false
  | some nm =>
    (specs.filter (fun p => p.1 = nm)).any fun p =>
      dependsMatcher p.2 (info.version.getD "") (info.build.getD "")

/-- The fixed-point loop of `_restore_required_dependencies`: while both
the excluded set and the frontier are nonempty, collate the frontier's
constraints, move every matching excluded filename into the new frontier,
and repeat (when nothing moves the next loop test fails, so we return).
Every recursive call strictly shrinks the excluded list, so fuel
`excluded.length + 1` never runs out (`restoreLoopF_fuel` below). -/
def restoreLoopF (allPackages : Packages) (alreadyRequired : List String)
    (onlyMostRecent : Bool) :
    Nat → List String → List String → Except Unit (List String)
  | 0, excluded, _ => .ok excluded
  | fuel + 1, excluded, cur =>
    if excluded = [] ∨ cur = [] then .ok excluded
    else
      match collectDepSpecs allPackages alreadyRequired onlyMostRecent cur with
      | .error e => .error e
      | .ok specs =>
        let moved := excluded.filter
          (fun k => matchesAnySpec allPackages specs k)
        if moved = [] then .ok excluded
        else
          restoreLoopF allPackages alreadyRequired onlyMostRecent fuel
            (excluded.filter fun k => !matchesAnySpec allPackages specs k)
            moved

/-- `_restore_required_dependencies(all_packages, excluded, required,
only_most_recent)`. -/
def restoreRequiredDependencies (allPackages : Packages)
    (excluded required : List String) (onlyMostRecent : Bool) :
    Except Unit (List String) :=
  restoreLoopF allPackages (alreadyRequiredOf allPackages required)
    onlyMostRecent (excluded.length + 1) excluded required

/-! ### The selection steps of `main` (steps 2–3 and the dependency pass)

`main` applies blacklist rules to build `excluded_packages`, then the
python-whitelist and whitelist rules to build `required_packages`, removing
required members from the excluded set.  The local variable
`python_version` is only assigned inside the python-whitelist loop, yet the
whitelist branch reads it: when a whitelist is configured and
`python_version` was never bound, Python raises `UnboundLocalError`, which
the model surfaces as an error value. -/

inductive MainErr
  | unboundLocalPythonVersion
  | attributeErrorNoneGroup
deriving DecidableEq

/-- A python-whitelist entry: a mapping python-version → list of rules. -/
abbrev PyRule := List (String × List Rule)

/-- Step 2 of `main`: the blacklist loop building `excluded_packages`. -/
def blExcluded (packages : Packages) (blacklist : List Rule) : List String :=
  blacklist.foldl (fun ex rule => sunion ex (matchNames packages rule)) []

/-- The python-whitelist double loop of step 3: grows `required_packages`
per (python-version → rule list) item, removes required members from the
excluded set after each item, and tracks the last value bound to the
`python_version` local. -/
def pwlStep (packages : Packages) (pythonWhitelist : List PyRule)
    (onlyMostRecent : Bool) (excluded : List String) :
    List String × List String × Option String :=
  pythonWhitelist.foldl (fun st wlist =>
    (pyDict wlist).foldl (fun st pvVals =>
      let req := pvVals.2.foldl (fun req val =>
        sunion req (matchNames packages val (some pvVals.1) onlyMostRecent))
        st.2.1
      (sdiffL st.1 req, req, some pvVals.1)) st)
    (excluded, [], none)

/-- The plain-whitelist loop of step 3; note it passes the leaked
`python_version` value `pv` into `_match`. -/
def wlRequired (packages : Packages) (whitelist : List Rule) (pv : String)
    (onlyMostRecent : Bool) (req0 : List String) : List String :=
  whitelist.foldl (fun req wlist =>
    sunion req (matchNames packages (pyDict wlist) (some pv) onlyMostRecent))
    req0

/-- Steps 2–3 of `main`: blacklist application, then the two whitelist
branches.  Returns (excluded, required) before dependency restoration. -/
def planSelection (packages : Packages) (blacklist whitelist : List Rule)
    (pythonWhitelist : List PyRule) (onlyMostRecent : Bool) :
    Except MainErr (List String × List String) :=
  let step := pwlStep packages pythonWhitelist onlyMostRecent
    (blExcluded packages blacklist)
  match whitelist with
  | [] => .ok (step.1, step.2.1)
  | _ =>
    match step.2.2 with
    | none => .error .unboundLocalPythonVersion
    | some pv =>
      let required := wlRequired packages whitelist pv onlyMostRecent step.2.1
      .ok (sdiffL step.1 required, required)

/-- Steps 2–3 plus the `include_depends` pass: the final (excluded,
required) pair `main` works with from step 4 on. -/
def computeSelection (packages : Packages) (blacklist whitelist : List Rule)
    (pythonWhitelist : List PyRule) (includeDepends onlyMostRecent : Bool) :
    Except MainErr (List String × List String) :=
  match planSelection packages blacklist whitelist pythonWhitelist
      onlyMostRecent with
  | .error e => .error e
  | .ok exReq =>
    if includeDepends then
      match restoreRequiredDependencies packages exReq.1 exReq.2
          onlyMostRecent with
      | .error _ => .error .attributeErrorNoneGroup
      | .ok ex' => .ok (ex', exReq.2)
    else .ok exReq

/-! ### `_validate` / `_remove_package`: the validation engine -/

/-- The validation outcome `_validate`/`_remove_package` return: the path,
and `none` for a pass or `some` removal message. -/
abbrev ValidationResult := String × Option String

/-- `_remove_package(pkg_path, reason)`: logs, deletes the file (the
directory models drop the entry at the call sites) and returns the path
with the removal message. -/
def removePackage (pkgPath reason : String) : ValidationResult :=
  (pkgPath, some ("Removing: " ++ pkgPath ++ ". Reason: " ++ reason))

/-- The content-dependent external primitives of `_validate`: the
`hashlib.md5(...).hexdigest()` of a byte string, and whether `tarfile` can
open the archive and decode `info/index.json` (failure raises one of the
caught `TarError`/`EOFError`). -/
structure ValidateEnv where
  md5Hex : List Nat → String
  tarOk : List Nat → Bool

/-- The size-and-archive part of `_validate`, reached when no truthy md5
is supplied: a truthy size differing from the on-disk size removes with
"Failed size test"; else an unreadable archive removes with "Tarfile read
failure"; else pass. -/
def validateSizeTar (env : ValidateEnv) (filename : String)
    (content : List Nat) (size : Option Nat) : ValidationResult :=
  let sizeMismatch :=
    match size with
    | some s => s ≠ 0 && s ≠ content.length
    | none => false
  if sizeMismatch then removePackage filename "Failed size test"
  else if env.tarOk content then (filename, none)
  else removePackage filename "Tarfile read failure"

/-- `_validate(filename, md5, size)` over a file with byte contents
`content`.  A truthy supplied md5 short-circuits: match passes
immediately, mismatch removes (with the source's swapped
Expected/Computed rendering); otherwise the size and archive checks run. -/
def validateModel (env : ValidateEnv) (filename : String)
    (content : List Nat) (md5 : Option String) (size : Option Nat) :
    ValidationResult :=
  match md5 with
  | some m =>
    if m = "" then validateSizeTar env filename content size
    else if env.md5Hex content = m then (filename, none)
    else
      removePackage filename
        ("Failed md5 validation. Expected: " ++ env.md5Hex content ++
          ". Computed: " ++ m)
  | none => validateSizeTar env filename content size

/-! ### `_download_backoff_retry`: the retry loop -/

/-- Outcome of `_download_backoff_retry`: the byte count of a successful
`_download`, the re-raised exception of the final failed attempt, or the
`UnboundLocalError` on the result variable `rtn` when the loop body never
ran. -/
inductive RetryOutcome (E : Type)
  | success (bytes : Nat)
  | raised (e : E)
  | unboundLocalRtn
deriving DecidableEq

/-- Fueled core of the retry `while` loop. `c` is the Python attempt
counter; attempt `c+1` fetches, breaking on success, re-raising on the
last allowed attempt, sleeping and retrying otherwise.  Leaving the loop
without a bound `rtn` (which, from the entry point, can only happen when
`max_retries <= 0` keeps the body from ever running) is the
`UnboundLocalError` outcome; the fuel `maxRetries.toNat - c` never runs
out before the loop condition turns false.  The second component is the
final attempt count. -/
def retryLoopF (fetch : Nat → Except E Nat) (maxRetries : Int) :
    Nat → Nat → RetryOutcome E × Nat
  | 0, c => (.unboundLocalRtn, c)
  | fuel + 1, c =>
    if (c : Int) < maxRetries then
      let c' := c + 1
      match fetch c' with
      | .ok b => (.success b, c')
      | .error e =>
        if (c' : Int) < maxRetries then retryLoopF fetch maxRetries fuel c'
        else (.raised e, c')
    else (.unboundLocalRtn, c)

/-- `_download_backoff_retry` with `fetch i` the result of the `i`-th
`_download` call (the backoff sleep has no observable effect here). -/
def downloadBackoffRetry (fetch : Nat → Except E Nat) (maxRetries : Int) :
    RetryOutcome E × Nat :=
  retryLoopF fetch maxRetries maxRetries.toNat 0

/-! ### `_write_repodata`: deterministic serialization and its companion

`_write_repodata` serializes with `json.dumps(repodata_dict, indent=2,
sort_keys=True)`, strips trailing whitespace from every line, appends a
final newline when missing, and writes the bz2-compressed companion of the
exact same text.  `json.dumps` / `json.loads` are Python-stdlib
collaborators, so they are modelled here: the dumper reproduces the
documented `indent=2, sort_keys=True` text format (verified against
CPython's output shape), and the parser models `json.loads` on that
grammar.  `bz2` is modelled as an abstract lossless codec passed in as a
parameter. -/

/-- A JSON value (Python ints; floats do not occur in repodata handling). -/
inductive JVal where
  | jnull
  | jbool (b : Bool)
  | jnum (n : Int)
  | jstr (s : String)
  | jarr (xs : List JVal)
  | jobj (kvs : List (String × JVal))

/-- Lowercase hex digit. -/
def hexDigitChar (n : Nat) : Char :=
  if n < 10 then Char.ofNat (48 + n) else Char.ofNat (87 + n)

/-- `\uXXXX` with four lowercase hex digits. -/
def uEscape (n : Nat) : List Char :=
  ['\\', 'u', hexDigitChar (n / 4096 % 16), hexDigitChar (n / 256 % 16),
    hexDigitChar (n / 16 % 16), hexDigitChar (n % 16)]

/-- One character as `json.dumps` (default `ensure_ascii=True`) emits it;
astral codepoints become a surrogate pair. -/
def escapeChar (c : Char) : List Char :=
  if c = '"' then ['\\', '"']
  else if c = '\\' then ['\\', '\\']
  else if c = '\n' then ['\\', 'n']
  else if c = '\r' then ['\\', 'r']
  else if c = '\t' then ['\\', 't']
  else if c = '\x08' then ['\\', 'b']
  else if c = '\x0c' then ['\\', 'f']
  else if c.toNat < 0x20 || c.toNat > 0x7e then
    if c.toNat < 0x10000 then uEscape c.toNat
    else
      uEscape (0xd800 + (c.toNat - 0x10000) / 1024) ++
        uEscape (0xdc00 + (c.toNat - 0x10000) % 1024)
  else [c]

/-- A JSON string literal with quotes and escapes. -/
def dumpStrJ (s : String) : List Char :=
  '"' :: (s.data.map escapeChar).flatten ++ ['"']

def digitChar (n : Nat) : Char := Char.ofNat (48 + n)

/-- Fueled decimal rendering; fuel `n + 1` (as `natRepr` supplies) is
ample since the argument at least halves every step. -/
def natReprF : Nat → Nat → List Char
  | 0, _ => []
  | fuel + 1, n =>
    if n < 10 then [digitChar n]
    else natReprF fuel (n / 10) ++ [digitChar (n % 10)]

def natRepr (n : Nat) : List Char := natReprF (n + 1) n

/-- Python `repr` of an int. -/
def intRepr (n : Int) : List Char :=
  if n < 0 then '-' :: natRepr (-n).toNat else natRepr n.toNat

def spaces (n : Nat) : List Char := List.replicate n ' '

/-- The `,\n<indent><item>` continuation of a multi-line JSON array. -/
def arrBody (ind : Nat) : List (List Char) → List Char
  | [] => []
  | item :: rest => ',' :: '\n' :: spaces ind ++ item ++ arrBody ind rest

/-- A JSON array at indent `ind` from already-dumped items. -/
def assembleArr (ind : Nat) (items : List (List Char)) : List Char :=
  match items with
  | [] => ['[', ']']
  | item :: rest =>
    '[' :: '\n' :: spaces (ind + 2) ++ item ++ arrBody (ind + 2) rest ++
      '\n' :: spaces ind ++ [']']

/-- The `,\n<indent>"key": <item>` continuation of a multi-line object. -/
def objBody (ind : Nat) : List (String × List Char) → List Char
  | [] => []
  | (k, item) :: rest =>
    ',' :: '\n' :: spaces ind ++ dumpStrJ k ++ ':' :: ' ' :: item ++
      objBody ind rest

/-- A JSON object at indent `ind` from already-dumped entries. -/
def assembleObj (ind : Nat) (entries : List (String × List Char)) :
    List Char :=
  match entries with
  | [] => ['\x7b', '\x7d']
  | (k, item) :: rest =>
    '\x7b' :: '\n' :: spaces (ind + 2) ++ dumpStrJ k ++ ':' :: ' ' :: item ++
      objBody (ind + 2) rest ++ '\n' :: spaces ind ++ ['\x7d']

mutual

/-- `json.dumps(v, indent=2, sort_keys=True)` at indent level `ind`
(object entries are dumped, then stably sorted by key — equivalent to
sorting first, since dumping keeps keys). -/
def pydumpsV (ind : Nat) : JVal → List Char
  | .jnull => ['n', 'u', 'l', 'l']
  | .jbool true => ['t', 'r', 'u', 'e']
  | .jbool false => ['f', 'a', 'l', 's', 'e']
  | .jnum n => intRepr n
  | .jstr s => dumpStrJ s
  | .jarr xs => assembleArr ind (pydumpsList (ind + 2) xs)
  | .jobj kvs => assembleObj ind (sortPairsByKey (pydumpsEntries (ind + 2) kvs))

def pydumpsList (ind : Nat) : List JVal → List (List Char)
  | [] => []
  | v :: rest => pydumpsV ind v :: pydumpsList ind rest

def pydumpsEntries (ind : Nat) :
    List (String × JVal) → List (String × List Char)
  | [] => []
  | (k, v) :: rest => (k, pydumpsV ind v) :: pydumpsEntries ind rest

end

def pydumps (v : JVal) : List Char := pydumpsV 0 v

mutual

/-- The key-sorted normal form a `dumps`-then-`loads` round trip lands on. -/
def normV : JVal → JVal
  | .jnull => .jnull
  | .jbool b => .jbool b
  | .jnum n => .jnum n
  | .jstr s => .jstr s
  | .jarr xs => .jarr (normList xs)
  | .jobj kvs => .jobj (sortPairsByKey (normEntries kvs))

def normList : List JVal → List JVal
  | [] => []
  | v :: rest => normV v :: normList rest

def normEntries : List (String × JVal) → List (String × JVal)
  | [] => []
  | (k, v) :: rest => (k, normV v) :: normEntries rest

end

/-- No key occurs twice. -/
def nodupKeysB : List (String × β) → Bool
  | [] => true
  | (k, _) :: rest => !(rest.any fun q => q.1 = k) && nodupKeysB rest

/-- Printable ASCII needing no escape. -/
def goodCharB (c : Char) : Bool :=
  0x20 ≤ c.toNat && c.toNat ≤ 0x7e && c ≠ '"' && c ≠ '\\'

def goodStrB (s : String) : Bool := s.data.all goodCharB

mutual

/-- Well-formedness for the round-trip statement: object keys are distinct
and every string is plain printable ASCII (so the text form carries it
verbatim). -/
def wfV : JVal → Bool
  | .jnull => true
  | .jbool _ => true
  | .jnum _ => true
  | .jstr s => goodStrB s
  | .jarr xs => wfL xs
  | .jobj kvs => nodupKeysB kvs && wfE kvs

def wfL : List JVal → Bool
  | [] => true
  | v :: rest => wfV v && wfL rest

def wfE : List (String × JVal) → Bool
  | [] => true
  | (k, v) :: rest => goodStrB k && wfV v && wfE rest

end

mutual

/-- A size measure dominating the parser fuel. -/
def jsizeV : JVal → Nat
  | .jnull => 1
  | .jbool _ => 1
  | .jnum _ => 1
  | .jstr _ => 1
  | .jarr xs => 1 + jsizeL xs
  | .jobj kvs => 1 + jsizeE kvs

def jsizeL : List JVal → Nat
  | [] => 0
  | v :: rest => 1 + jsizeV v + jsizeL rest

def jsizeE : List (String × JVal) → Nat
  | [] => 0
  | (_, v) :: rest => 1 + jsizeV v + jsizeE rest

end

/-- JSON inter-token whitespace. -/
def jsonWs (c : Char) : Bool := c = ' ' || c = '\t' || c = '\n' || c = '\r'

def skipWs (l : List Char) : List Char := l.dropWhile jsonWs

def hexVal (c : Char) : Option Nat :=
  if '0' ≤ c ∧ c ≤ '9' then some (c.toNat - 48)
  else if 'a' ≤ c ∧ c ≤ 'f' then some (c.toNat - 87)
  else if 'A' ≤ c ∧ c ≤ 'F' then some (c.toNat - 55)
  else none

/-- Decoding of a single-character escape (modelling `json.loads`). -/
def escDecode (e : Char) : Option Char :=
  if e = '"' then some '"'
  else if e = '\\' then some '\\'
  else if e = '/' then some '/'
  else if e = 'n' then some '\n'
  else if e = 'r' then some '\r'
  else if e = 't' then some '\t'
  else if e = 'b' then some '\x08'
  else if e = 'f' then some '\x0c'
  else none

/-- The body of a JSON string literal up to the closing quote, decoding
escapes (modelling `json.loads`; a lone surrogate is taken literally). -/
def parseStringBody : List Char → Option (List Char × List Char)
  | [] => none
  | c :: rest =>
    if c = '"' then some ([], rest)
    else if c = '\\' then
      match rest with
      | 'u' :: a :: b :: c2 :: d :: r2 =>
        (match hexVal a, hexVal b, hexVal c2, hexVal d with
         | some x, some y, some z, some w =>
           (parseStringBody r2).map fun p =>
             (Char.ofNat (4096 * x + 256 * y + 16 * z + w) :: p.1, p.2)
         | _, _, _, _ => none)
      | e :: r2 =>
        (match escDecode e with
         | some ch => (parseStringBody r2).map fun p => (ch :: p.1, p.2)
         | none => none)
      | [] => none
    else (parseStringBody rest).map fun p => (c :: p.1, p.2)

/-- A maximal run of decimal digits. -/
def parseDigits (l : List Char) : Option (Nat × List Char) :=
  let ds := l.takeWhile Char.isDigit
  if ds = [] then none
  else some (digitsToNat ds, l.drop ds.length)

/-- An optionally-signed integer token. -/
def parseIntTok (l : List Char) : Option (Int × List Char) :=
  if l.head? = some '-' then
    (parseDigits l.tail).map fun p => ((-(p.1 : Int)), p.2)
  else (parseDigits l).map fun p => (((p.1 : Int)), p.2)

mutual

/-- Fueled recursive-descent value parser modelling `json.loads` on the
grammar `json.dumps` emits; every recursive call consumes input, so the
`input length + 1` fuel `pyloads` supplies never runs out. -/
def pParseV : Nat → List Char → Option (JVal × List Char)
  | 0, _ => none
  | fuel + 1, l =>
    match skipWs l with
    | [] => none
    | c :: r =>
      if c = 'n' then
        match r with
        | 'u' :: 'l' :: 'l' :: rest => some (.jnull, rest)
        | _ => none
      else if c = 't' then
        match r with
        | 'r' :: 'u' :: 'e' :: rest => some (.jbool true, rest)
        | _ => none
      else if c = 'f' then
        match r with
        | 'a' :: 'l' :: 's' :: 'e' :: rest => some (.jbool false, rest)
        | _ => none
      else if c = '"' then
        (parseStringBody r).map fun p => (.jstr (String.mk p.1), p.2)
      else if c = '[' then
        let r1 := skipWs r
        if r1.head? = some ']' then some (.jarr [], r1.tail)
        else
          match pParseItems fuel r1 with
          | some (xs, r2) => some (.jarr xs, r2)
          | none => none
      else if c = '\x7b' then
        let r1 := skipWs r
        if r1.head? = some '\x7d' then some (.jobj [], r1.tail)
        else
          match pParseEntries fuel r1 with
          | some (kvs, r2) => some (.jobj kvs, r2)
          | none => none
      else (parseIntTok (c :: r)).map fun p => (.jnum p.1, p.2)

/-- One-or-more comma-separated array items up to the closing bracket. -/
def pParseItems : Nat → List Char → Option (List JVal × List Char)
  | 0, _ => none
  | fuel + 1, l =>
    match pParseV fuel l with
    | none => none
    | some (v, r) =>
      match skipWs r with
      | [] => none
      | c :: r2 =>
        if c = ',' then
          match pParseItems fuel r2 with
          | some (vs, r3) => some (v :: vs, r3)
          | none => none
        else if c = ']' then some ([v], r2)
        else none

/-- One-or-more `"key": value` object entries up to the closing brace. -/
def pParseEntries : Nat → List Char →
    Option (List (String × JVal) × List Char)
  | 0, _ => none
  | fuel + 1, l =>
    match skipWs l with
    | [] => none
    | c :: r =>
      if c = '"' then
        match parseStringBody r with
        | none => none
        | some (kcs, r1) =>
          match skipWs r1 with
          | [] => none
          | c2 :: r2 =>
            if c2 = ':' then
              match pParseV fuel r2 with
              | none => none
              | some (v, r3) =>
                match skipWs r3 with
                | [] => none
                | c3 :: r4 =>
                  if c3 = ',' then
                    match pParseEntries fuel r4 with
                    | some (kvs, r5) => some ((String.mk kcs, v) :: kvs, r5)
                    | none => none
                  else if c3 = '\x7d' then some ([(String.mk kcs, v)], r4)
                  else none
            else none
      else none

end

/-- `json.loads`: parse one value, allow trailing whitespace only. -/
def pyloads (s : String) : Option JVal :=
  match pParseV (s.data.length + 1) s.data with
  | some (v, rest) => if skipWs rest = [] then some v else none
  | none => none

/-- Python `str.splitlines()` for text whose only line boundary is `\n`
(the serialized form never contains `\r` or other boundaries). -/
def pysplitlinesNl (l : List Char) : List (List Char) :=
  if l = [] then []
  else
    let gs := splitOnCh '\n' l
    if gs.getLast? = some [] then gs.dropLast else gs

/-- Python `line.rstrip()`. -/
def pyrstripWs (l : List Char) : List Char :=
  (l.reverse.dropWhile isPyWs).reverse

def joinNl (ls : List (List Char)) : List Char :=
  (ls.intersperse ['\n']).flatten

/-- `"\n".flatten(line.rstrip() for line in data.splitlines())`. -/
def stripData (l : List Char) : List Char :=
  joinNl ((pysplitlinesNl l).map pyrstripWs)

/-- The text `_write_repodata` writes to `repodata.json`: the dump with
line-trailing whitespace stripped and exactly one final newline. -/
def writeRepodataText (v : JVal) : List Char :=
  let data := stripData (pydumps v)
  if ['\n'].isSuffixOf data then data else data ++ ['\n']

/-- `_write_repodata`: the pair (repodata.json text, its compressed
companion), with `bz2.compress` abstracted as `compress`. -/
def writeRepodataModel (compress : List Char → List Char) (v : JVal) :
    List Char × List Char :=
  (writeRepodataText v, compress (writeRepodataText v))

/-- Association lookup with string keys (Python `dict[k]`). -/
def lookupJ (k : String) : List (String × JVal) → Option JVal
  | [] => none
  | (k', v) :: rest => if k = k' then some v else lookupJ k rest

/-- Every key of `a` also occurs in `b`. -/
def keysSubB (a b : List (String × JVal)) : Bool :=
  a.all fun kv => (lookupJ kv.1 b).isSome

mutual

/-- Order-independent equality of the mapping content: objects agree on
every key (in both directions), arrays pointwise, leaves by value. -/
def sameMapV : JVal → JVal → Bool
  | .jnull, w => match w with | .jnull => true | _ => false
  | .jbool b, w => match w with | .jbool b' => b = b' | _ => false
  | .jnum n, w => match w with | .jnum n' => n = n' | _ => false
  | .jstr s, w => match w with | .jstr s' => s = s' | _ => false
  | .jarr xs, w => match w with | .jarr ys => sameMapL xs ys | _ => false
  | .jobj kvs, w =>
    match w with
    | .jobj kvs' => sameMapE kvs kvs' && keysSubB kvs' kvs
    | _ => false

def sameMapL : List JVal → List JVal → Bool
  | [], ys => ys.isEmpty
  | x :: xs, ys =>
    match ys with
    | [] => false
    | y :: ys' => sameMapV x y && sameMapL xs ys'

def sameMapE : List (String × JVal) → List (String × JVal) → Bool
  | [], _ => true
  | (k, v) :: rest, kvs' =>
    (match lookupJ k kvs' with
     | some w => sameMapV v w
     | none => false) && sameMapE rest kvs'

end

/-- Keys weakly ascending (Python `sorted` order). -/
def sortedByKeyB : List (String × β) → Bool
  | [] => true
  | [_] => true
  | a :: b :: rest => !strLtB b.1 a.1 && sortedByKeyB (b :: rest)

mutual

/-- Every object in the value has its keys in sorted order. -/
def isNormalV : JVal → Bool
  | .jnull => true
  | .jbool _ => true
  | .jnum _ => true
  | .jstr _ => true
  | .jarr xs => isNormalL xs
  | .jobj kvs => sortedByKeyB kvs && isNormalE kvs

def isNormalL : List JVal → Bool
  | [] => true
  | v :: rest => isNormalV v && isNormalL rest

def isNormalE : List (String × JVal) → Bool
  | [] => true
  | (_, v) :: rest => isNormalV v && isNormalE rest

end

/-- No whitespace character directly precedes a newline. -/
def goodPairsB : List Char → Bool
  | [] => true
  | [_] => true
  | a :: b :: rest => !(isPyWs a && b = '\n') && goodPairsB (b :: rest)

/-- A nonempty text chunk with no whitespace-before-newline and a
non-whitespace final character: the shape on which the source's
line-stripping pass is the identity. -/
def chunkOk (l : List Char) : Prop :=
  goodPairsB l = true ∧ (∀ c, l.getLast? = some c → isPyWs c = false) ∧
    l ≠ []

/-- A chunk whose first character is not whitespace either. -/
def chunkGood (l : List Char) : Prop :=
  chunkOk l ∧ ∀ y, l.head? = some y → isPyWs y = false

/-- Total length of dumped array items plus one separator each (a lower
bound used to show the parser fuel drawn from the text length suffices). -/
def sumLens : List (List Char) → Nat
  | [] => 0
  | item :: rest => 1 + item.length + sumLens rest

/-- Total length of dumped object entries plus one separator each. -/
def sumItems : List (String × List Char) → Nat
  | [] => 0
  | p :: rest => 1 + p.2.length + sumItems rest

/-- Parser correctness at a given fuel: a serialized well-formed value
followed by a non-digit remainder parses back to its key-sorted normal
form, leaving the remainder untouched. -/
def ParseVOk (fuel : Nat) : Prop :=
  ∀ (v : JVal) (ind : Nat) (rest : List Char), wfV v = true →
    jsizeV v ≤ fuel → (∀ y, rest.head? = some y → y.isDigit = false) →
    pParseV fuel (pydumpsV ind v ++ rest) = some (normV v, rest)

/-- Parser correctness for the tail of a serialized nonempty array. -/
def ParseItemsOk (fuel : Nat) : Prop :=
  ∀ (x : JVal) (xs : List JVal) (ind k : Nat) (rest : List Char),
    wfV x = true → wfL xs = true → jsizeL (x :: xs) ≤ fuel →
    pParseItems fuel
      (pydumpsV ind x ++ (arrBody ind (pydumpsList ind xs) ++
        ('\n' :: spaces k ++ (']' :: rest))))
      = some (normV x :: normList xs, rest)

/-- Parser correctness for the tail of a serialized nonempty object. -/
def ParseEntriesOk (fuel : Nat) : Prop :=
  ∀ (ky : String) (v : JVal) (es : List (String × JVal)) (ind k : Nat)
    (rest : List Char),
    goodStrB ky = true → wfV v = true → wfE es = true →
    jsizeE ((ky, v) :: es) ≤ fuel →
    pParseEntries fuel
      (dumpStrJ ky ++ (':' :: ' ' :: (pydumpsV ind v ++
        (objBody ind (pydumpsEntries ind es) ++
          ('\n' :: spaces k ++ ('\x7d' :: rest))))))
      = some ((ky, normV v) :: normEntries es, rest)

/-- A small concrete repodata dictionary (keys deliberately unsorted). -/
def c6Value : JVal :=
  .jobj [("packages", .jobj
      [("b-1.0-0.tar.bz2", .jobj
          [("name", .jstr "b"), ("size", .jnum 42),
            ("depends", .jarr [.jstr "python"])]),
        ("a-1.0-0.tar.bz2", .jobj [("name", .jstr "a")])]),
    ("info", .jobj [])]

/-! ### main, steps 5-9: the download loop, checkpoints and noarch
creation (lines 1216-1323)

The filesystem and network are abstracted into an environment: free-space
readings per loop counter, the downloader (already wrapped in
`_download_backoff_retry`, so an `error` is a raised exception after retry
exhaustion), and which downloaded archives pass `_validate`.  The loop
body, its three `break`s, the every-15-packages checkpoint, the final
`_validate_and_move` and the noarch creation follow the source. -/

/-- Why `main`'s download loop stopped early (its three `break`s). -/
inductive AbortReason where
  | tempDiskLow
  | downloadFailed
  | targetDiskLow
deriving DecidableEq

/-- The loop-visible state: `total_bytes`, the conda packages currently
in the temporary download dir, those in the platform's local directory,
and `summary["downloaded"]`. -/
structure MirrorState where
  totalBytes : Nat
  tempFiles : List String
  localFiles : List String
  downloaded : List String
deriving DecidableEq

/-- Environment of the download phase. -/
structure LoopEnv where
  minFreeSpace : Nat
  tempFree : Nat → Nat
  targetFree : Nat → Nat
  fetch : String → Except Unit Nat
  valid : String → Bool

/-- `_validate_and_move`: validation removes the invalid files from the
download dir, the remaining conda packages are moved into the local
directory (the repodata rewrite is not part of the loop claims). -/
def vamModel (env : LoopEnv) (st : MirrorState) : MirrorState :=
  { st with tempFiles := [],
            localFiles := st.localFiles ++ st.tempFiles.filter env.valid }

/-- The `for package_counter, package_name in enumerate(sorted(to_mirror))`
loop of `main` (lines 1238-1306): temp-disk check, download, target-disk
check, summary update, checkpoint every 15 packages; each `break` returns
the state reached so far together with its reason. -/
def mirrorLoop (env : LoopEnv) : Nat → List String →
    MirrorState → MirrorState × Option AbortReason
  | _, [], st => (st, none)
  | i, name :: rest, st =>
    if env.tempFree i < env.minFreeSpace then (st, some .tempDiskLow)
    else
      match env.fetch name with
      | .error _ => (st, some .downloadFailed)
      | .ok bytes =>
        let st1 : MirrorState :=
          { st with totalBytes := st.totalBytes + bytes,
                    tempFiles := st.tempFiles ++ [name] }
        if (env.targetFree i : Int) - st1.totalBytes < env.minFreeSpace then
          (st1, some .targetDiskLow)
        else
          let st2 : MirrorState :=
            { st1 with downloaded := st1.downloaded ++ [name] }
          let st3 := if (i + 1) % 15 = 0 then vamModel env st2 else st2
          mirrorLoop env (i + 1) rest st3

/-- Steps 6-8 of a non-dry `main` run: the loop over the sorted to-mirror
list, then the final `_validate_and_move` checkpoint, run whether or not
the loop was aborted. -/
def downloadPhase (env : LoopEnv) (toMirror : List String)
    (localFiles : List String) : MirrorState × Option AbortReason :=
  let r := mirrorLoop env 0 (sortStrings toMirror)
    { totalBytes := 0, tempFiles := [], localFiles := localFiles,
      downloaded := [] }
  (vamModel env r.1, r.2)

/-- The observable target-root state that `main`'s tail touches. -/
structure TargetFS where
  noarchExists : Bool
  noarchRepodata : Option (List Char)
deriving DecidableEq

/-- The `noarch_repodata = {"info": {}, "packages": {}}` dictionary. -/
def emptyRepodata : JVal := .jobj [("info", .jobj []), ("packages", .jobj [])]

/-- Lines 1316-1322 of `main`: create the `noarch` directory with an
empty index when it does not exist yet. -/
def noarchStep (fs : TargetFS) : TargetFS :=
  if fs.noarchExists then fs
  else { noarchExists := true,
         noarchRepodata := some (writeRepodataText emptyRepodata) }

/-- The repodata dictionary each `_validate_and_move` writes into the
platform's local directory: the upstream `info` block and the upstream
packages pruned to the files present locally or in the download dir. -/
def prunedRepodata (info : JVal) (packages : List (String × JVal))
    (present : List String) : JVal :=
  .jobj [("info", info),
    ("packages", .jobj (packages.filter fun p => present.contains p.1))]

/-- `main` from step 5 on.  `local_directory` is
`target_directory/platform` (line 1127): when the mirrored platform is
`noarch` itself, the non-dry `makedirs` at line 1129 creates the noarch
directory and the final checkpoint moves the pruned mirrored repodata
into it, so the existence test of the noarch block at line 1318 then
skips the empty-index creation.  The dry-run early return at line 1224
happens before the `makedirs`, the download loop and the noarch block. -/
def mainTailPlat (platform : String) (dryRun : Bool) (env : LoopEnv)
    (info : JVal) (packages : List (String × JVal))
    (toMirror localFiles : List String) (fs : TargetFS) :
    TargetFS × Option (MirrorState × Option AbortReason) :=
  if dryRun then (fs, none)
  else
    let r := downloadPhase env toMirror localFiles
    let fs1 :=
      if platform = "noarch" then
        { noarchExists := true,
          noarchRepodata := some (writeRepodataText
            (prunedRepodata info packages r.1.localFiles)) }
      else fs
    (noarchStep fs1, some r)

/-- A small upstream `info` block for the noarch-platform run. -/
def c7Info : JVal := .jobj [("subdir", .jstr "noarch")]

/-- A one-package upstream index for the noarch-platform run. -/
def c7Packages : List (String × JVal) :=
  [("a-1.0-0.tar.bz2",
    .jobj [("name", .jstr "a"), ("version", .jstr "1.0")])]

/-- A download environment whose fetch succeeds only for `a-1.0-0`. -/
def c9Env : LoopEnv :=
  { minFreeSpace := 5, tempFree := fun _ => 100,
    targetFree := fun _ => 100,
    fetch := fun n => if n = "a-1.0-0.tar.bz2" then .ok 10 else .error (),
    valid := fun _ => true }

/-- A download environment whose temp filesystem runs out of space after
the first download. -/
def c9DiskEnv : LoopEnv :=
  { minFreeSpace := 5,
    tempFree := fun i => if i = 0 then 100 else 2,
    targetFree := fun _ => 100,
    fetch := fun _ => .ok 10, valid := fun _ => true }

/-- An all-green environment for the dry-run counterexample. -/
def c7Env : LoopEnv :=
  { minFreeSpace := 0, tempFree := fun _ => 1000,
    targetFree := fun _ => 1000, fetch := fun _ => .ok 1,
    valid := fun _ => true }

/-- A download environment whose target filesystem cannot take a second
package: after the first 10-byte download, 12 - 10 falls below 5. -/
def c9TargetEnv : LoopEnv :=
  { minFreeSpace := 5, tempFree := fun _ => 100,
    targetFree := fun _ => 12, fetch := fun _ => .ok 10,
    valid := fun _ => true }

/-! ### Concrete indexes for the scenario claims -/

/-- The three-package index of the spec's closure scenario. -/
def scenarioPackages : Packages :=
  [("a-1.0-0.tar.bz2",
    { name := some "a", version := some "1.0", build := some "0",
      depends := some ["b >=2.0"] }),
   ("b-1.0-0.tar.bz2", { name := some "b", version := some "1.0" }),
   ("b-2.0-0.tar.bz2", { name := some "b", version := some "2.0" })]

/-- A two-package index for exercising the whitelist-wins rule: `x` has a
plain build string, `z` has a `py38` build string. -/
def wlPackages : Packages :=
  [("x-1.0-0.tar.bz2",
    { name := some "x", version := some "1.0", build := some "0" }),
   ("z-1.0-py38_0.tar.bz2",
    { name := some "z", version := some "1.0", build := some "py38_0" })]

/-- A three-package index whose whitelisted package carries a `py38`
build, so a python-whitelist alone selects it. -/
def depPackages : Packages :=
  [("a-1.0-py38_0.tar.bz2",
    { name := some "a", version := some "1.0", build := some "py38_0",
      depends := some ["b >=2.0"] }),
   ("b-1.0-0.tar.bz2", { name := some "b", version := some "1.0" }),
   ("b-2.0-0.tar.bz2", { name := some "b", version := some "2.0" })]

/-! ## Supporting lemmas -/

/-- If some element satisfies `p`, filtering with `!p` strictly shrinks. -/
theorem length_filter_not_lt {α : Type} (l : List α) (p : α → Bool)
    (h : l.filter p ≠ []) :
    (l.filter fun x => !p x).length < l.length := by
  induction l with
  | nil => simp at h
  | cons a t ih =>
    by_cases hp : p a
    · have : (t.filter fun x => !p x).length ≤ t.length :=
        List.length_filter_le _ _
      simp [hp]
      omega
    · have hne : t.filter p ≠ [] := by
        simpa [List.filter_cons, hp] using h
      have := ih hne
      simp [List.filter_cons, hp]
      omega

/-- Fuel sufficiency: any two fuel amounts exceeding the length of the
excluded list give the same result, so the fuel chosen by
`restoreRequiredDependencies` computes the true fixed point of the
unbounded `while` loop. -/
theorem restoreLoopF_fuel (allPackages : Packages)
    (alreadyRequired : List String) (onlyMostRecent : Bool) :
    ∀ (f : Nat) {g : Nat} (excluded cur : List String),
      excluded.length < f → excluded.length < g →
      restoreLoopF allPackages alreadyRequired onlyMostRecent f excluded cur =
      restoreLoopF allPackages alreadyRequired onlyMostRecent g excluded cur := by
  intro f
  induction f with
  | zero => intro g ex cur hf; omega
  | succ f ih =>
    intro g ex cur hf hg
    cases g with
    | zero => omega
    | succ g =>
      rw [restoreLoopF, restoreLoopF]
      by_cases hguard : ex = [] ∨ cur = []
      · simp [hguard]
      · simp only [hguard, if_false]
        cases hcs : collectDepSpecs allPackages alreadyRequired onlyMostRecent cur with
        | error e => rfl
        | ok specs =>
          simp only
          by_cases hmv : ex.filter (fun k => matchesAnySpec allPackages specs k) = []
          · simp [hmv]
          · simp only [hmv, if_false]
            have hlt : (ex.filter fun k =>
                !matchesAnySpec allPackages specs k).length < ex.length :=
              length_filter_not_lt ex
                (fun k => matchesAnySpec allPackages specs k) hmv
            exact ih _ _ (by omega) (by omega)

/-- Whatever is on the right of `sdiffL` is not in the result. -/
theorem not_mem_sdiffL {x : String} {b : List String} (a : List String)
    (hx : x ∈ b) : x ∉ sdiffL a b := by
  intro hmem
  have := (List.mem_filter.mp hmem).2
  simp only [List.contains_eq_any_beq, Bool.not_eq_true'] at this
  have hany : b.any (x == ·) = true :=
    List.any_eq_true.mpr ⟨x, hx, by simp⟩
  rw [hany] at this
  cases this

/-- The disjointness invariant carried through the python-whitelist folds:
required members are never in the excluded set. -/
def PDisj (st : List String × List String × Option String) : Prop :=
  ∀ x ∈ st.2.1, x ∉ st.1

theorem pdisj_inner (packages : Packages) (onlyMostRecent : Bool)
    (l : List (String × List Rule))
    (st : List String × List String × Option String) (h : PDisj st) :
    PDisj (l.foldl (fun st pvVals =>
      let req := pvVals.2.foldl (fun req val =>
        sunion req (matchNames packages val (some pvVals.1) onlyMostRecent))
        st.2.1
      (sdiffL st.1 req, req, some pvVals.1)) st) := by
  induction l generalizing st with
  | nil => exact h
  | cons a t ih =>
    apply ih
    intro x hx
    exact not_mem_sdiffL _ hx

/-- The python-whitelist loops keep required and excluded disjoint. -/
theorem pdisj_pwlStep (packages : Packages) (pythonWhitelist : List PyRule)
    (onlyMostRecent : Bool) (excluded : List String) :
    PDisj (pwlStep packages pythonWhitelist onlyMostRecent excluded) := by
  unfold pwlStep
  have h0 : PDisj ((excluded, [], none) :
      List String × List String × Option String) := by
    intro x hx
    cases hx
  generalize hst : ((excluded, [], none) :
    List String × List String × Option String) = st at h0
  clear hst
  induction pythonWhitelist generalizing st with
  | nil => exact h0
  | cons a t ih =>
    apply ih
    exact pdisj_inner packages onlyMostRecent (pyDict a) st h0

/-- Whenever the selection planner returns at all, its required and
excluded sets are disjoint. -/
theorem planSelection_disjoint (packages : Packages)
    (blacklist whitelist : List Rule) (pythonWhitelist : List PyRule)
    (onlyMostRecent : Bool) (exP req : List String)
    (hplan : planSelection packages blacklist whitelist pythonWhitelist
      onlyMostRecent = .ok (exP, req)) :
    ∀ x ∈ req, x ∉ exP := by
  unfold planSelection at hplan
  cases whitelist with
  | nil =>
    simp only [Except.ok.injEq, Prod.mk.injEq] at hplan
    obtain ⟨h1, h2⟩ := hplan
    subst h1
    subst h2
    exact pdisj_pwlStep packages pythonWhitelist onlyMostRecent
      (blExcluded packages blacklist)
  | cons w ws =>
    simp only at hplan
    cases hpv : (pwlStep packages pythonWhitelist onlyMostRecent
        (blExcluded packages blacklist)).2.2 with
    | none => rw [hpv] at hplan; cases hplan
    | some pv =>
      rw [hpv] at hplan
      simp only [Except.ok.injEq, Prod.mk.injEq] at hplan
      obtain ⟨h1, h2⟩ := hplan
      subst h1
      subst h2
      intro x hx
      exact not_mem_sdiffL _ hx

/-- Anything the closure loop returns was already in the excluded set. -/
theorem restoreLoopF_subset (allPackages : Packages)
    (alreadyRequired : List String) (onlyMostRecent : Bool) :
    ∀ (fuel : Nat) (excluded cur res : List String),
      restoreLoopF allPackages alreadyRequired onlyMostRecent fuel excluded
        cur = .ok res →
      ∀ x ∈ res, x ∈ excluded := by
  intro fuel
  induction fuel with
  | zero =>
    intro ex cur res h
    simp only [restoreLoopF] at h
    cases h
    exact fun x hx => hx
  | succ fuel ih =>
    intro ex cur res h
    rw [restoreLoopF] at h
    by_cases hguard : ex = [] ∨ cur = []
    · simp [hguard] at h
      cases h
      exact fun x hx => hx
    · simp only [hguard, if_false] at h
      cases hcs : collectDepSpecs allPackages alreadyRequired onlyMostRecent cur with
      | error e => rw [hcs] at h; cases h
      | ok specs =>
        rw [hcs] at h
        simp only at h
        by_cases hmv : ex.filter (fun k => matchesAnySpec allPackages specs k) = []
        · simp only [hmv, if_true] at h
          cases h
          exact fun x hx => hx
        · simp only [hmv, if_false] at h
          intro x hx
          have := ih _ _ _ h x hx
          exact (List.mem_filter.mp this).1

/-- A whitespace-free string survives `split(maxsplit=1)` whole. -/
theorem pysplitWs1_no_ws (dep : String)
    (h : ∀ c ∈ dep.data, isPyWs c = false) :
    pysplitWs1 dep = if dep.data = [] then [] else [dep] := by
  unfold pysplitWs1
  have hdrop : dep.data.dropWhile isPyWs = dep.data := by
    cases hd : dep.data with
    | nil => simp
    | cons c cs =>
      rw [List.dropWhile_cons, h c (by rw [hd]; exact List.mem_cons_self _ _)]
      simp
  rw [hdrop]
  cases hd : dep.data with
  | nil => simp
  | cons c cs =>
    have htake : (c :: cs).takeWhile (fun x => !isPyWs x) = c :: cs := by
      rw [List.takeWhile_eq_self_iff]
      intro x hx
      rw [h x (hd ▸ hx)]
      rfl
    have hdrop2 : (c :: cs).dropWhile (fun x => !isPyWs x) = [] := by
      rw [List.dropWhile_eq_nil_iff]
      intro x hx
      rw [h x (hd ▸ hx)]
      rfl
    have hmk : String.mk (c :: cs) = dep := by
      cases dep with
      | mk d =>
        simp only at hd
        rw [hd]
    simp only [htake, hdrop2, List.dropWhile_nil, hmk]
    simp

/-! ## Claim theorems -/

/-- C1: for the spec's three-package scenario (blacklist `name:*`,
whitelist `name:a`, include-dependencies on, only-most-recent off, empty
local inventory), the selection-and-closure pipeline of `main` does NOT
produce a mirror set at all: the whitelist branch reads the never-assigned
`python_version` local, so the run raises `UnboundLocalError`.  The
individual stages behave exactly as the claim describes — the blacklist
rule matches all three packages, the whitelist rule matches `a-1.0-0`, the
closure pass restores `b-2.0-0` and keeps `b-1.0-0` excluded because
version 1.0 fails `>=2.0`, and the resulting to-mirror set would be
`{a-1.0-0, b-2.0-0}` — but `main` crashes before assembling them. -/
theorem c1_scenario_pipeline_crash_and_closure :
    computeSelection scenarioPackages [[("name", "*")]] [[("name", "a")]]
      [] true false = .error .unboundLocalPythonVersion
    ∧ matchNames scenarioPackages [("name", "*")] =
        ["a-1.0-0.tar.bz2", "b-1.0-0.tar.bz2", "b-2.0-0.tar.bz2"]
    ∧ matchNames scenarioPackages [("name", "a")] = ["a-1.0-0.tar.bz2"]
    ∧ restoreRequiredDependencies scenarioPackages
        ["b-1.0-0.tar.bz2", "b-2.0-0.tar.bz2"] ["a-1.0-0.tar.bz2"] false
      = .ok ["b-1.0-0.tar.bz2"]
    ∧ sdiffL (scenarioPackages.map (fun p => p.1)) ["b-1.0-0.tar.bz2"]
      = ["a-1.0-0.tar.bz2", "b-2.0-0.tar.bz2"]
    ∧ dependsMatcher ">=2.0" "1.0" "" = false
    ∧ dependsMatcher ">=2.0" "2.0" "" = true := by
  exact ⟨by decide, by decide, by decide, by decide, by decide, by decide,
    by decide⟩

/-- C2: a whitelist rule does NOT always win over a blacklist rule.  With
a whitelist but no python-whitelist, the planner crashes with
`UnboundLocalError` on `python_version` before any whitelist match is
applied; and when a python-whitelist IS supplied, the leaked
`python_version` value filters the plain whitelist matches by build
string, so the whitelist-matched `x-1.0-0` (matched by `name:x`, shown in
the second conjunct) remains in the excluded set. -/
theorem c2_whitelist_not_always_unexcluded :
    planSelection wlPackages [[("name", "*")]] [[("name", "x")]] [] false
      = .error .unboundLocalPythonVersion
    ∧ matchNames wlPackages [("name", "x")] = ["x-1.0-0.tar.bz2"]
    ∧ planSelection wlPackages [[("name", "*")]] [[("name", "x")]]
        [[("3.8", [[("name", "z")]])]] false
      = .ok (["x-1.0-0.tar.bz2"], ["z-1.0-py38_0.tar.bz2"]) := by
  exact ⟨by decide, by decide, by decide⟩

/-- C3: whenever the selection planner returns, its required and excluded
sets are disjoint; whenever the dependency-closure resolver then returns,
its result is a subset of the excluded set it was given, and is disjoint
from the union of the initial required set and the restored packages
(those removed from the excluded set). -/
theorem c3_selection_disjointness (packages : Packages)
    (blacklist whitelist : List Rule) (pythonWhitelist : List PyRule)
    (onlyMostRecent : Bool) (exP req : List String)
    (hplan : planSelection packages blacklist whitelist pythonWhitelist
      onlyMostRecent = .ok (exP, req)) :
    (∀ x ∈ req, x ∉ exP) ∧
    ∀ exF, restoreRequiredDependencies packages exP req onlyMostRecent
        = .ok exF →
      (∀ x ∈ exF, x ∈ exP) ∧
      ∀ x, x ∈ req ∨ (x ∈ exP ∧ x ∉ exF) → x ∉ exF := by
  have hd := planSelection_disjoint packages blacklist whitelist
    pythonWhitelist onlyMostRecent exP req hplan
  refine ⟨hd, ?_⟩
  intro exF hres
  have hsub : ∀ x ∈ exF, x ∈ exP :=
    restoreLoopF_subset packages (alreadyRequiredOf packages req)
      onlyMostRecent (exP.length + 1) exP req exF hres
  refine ⟨hsub, ?_⟩
  rintro x (hx | ⟨_, hx2⟩) hmem
  · exact hd x hx (hsub x hmem)
  · exact hx2 hmem

/-- Witness for C3 at a concrete configuration: blacklist `name:*`,
python-whitelist `3.8 → name:a`, no plain whitelist, on the py38 index. -/
theorem c3_selection_disjointness_witness :
    ("a-1.0-py38_0.tar.bz2" ∉
      (["b-1.0-0.tar.bz2", "b-2.0-0.tar.bz2"] : List String)) ∧
    ("b-2.0-0.tar.bz2" ∉ (["b-1.0-0.tar.bz2"] : List String)) := by
  have h := c3_selection_disjointness depPackages [[("name", "*")]] []
    [[("3.8", [[("name", "a")]])]] false
    ["b-1.0-0.tar.bz2", "b-2.0-0.tar.bz2"] ["a-1.0-py38_0.tar.bz2"]
    (by decide)
  refine ⟨h.1 _ (by decide), ?_⟩
  have h2 := h.2 ["b-1.0-0.tar.bz2"] (by decide)
  exact h2.2 _ (Or.inr ⟨by decide, by decide⟩)

/-- C8: a dependency entry that is a bare name (no whitespace anywhere, so
no whitespace-separated constraint remainder) parses — under either
only-most-recent mode — to the name with an empty constraint string, and
the `DependsMatcher` of an empty constraint accepts every (version, build)
pair. -/
theorem c8_bare_depends_unconstrained (dep : String)
    (h : ∀ c ∈ dep.data, isPyWs c = false) :
    (∀ onlyMostRecent, parseDepSpec onlyMostRecent dep = .ok (dep, "")) ∧
    (∀ version build, dependsMatcher "" version build = true) := by
  constructor
  · intro omr
    unfold parseDepSpec
    rw [pysplitWs1_no_ws dep h]
    cases hd : dep.data with
    | nil => simp
    | cons c cs => simp
  · intro version build
    rfl

/-- Witness for C8 at the bare dependency `"b"`. -/
theorem c8_bare_depends_unconstrained_witness :
    parseDepSpec true "b" = .ok ("b", "") ∧
    dependsMatcher "" "9.9" "zzz_42" = true :=
  ⟨(c8_bare_depends_unconstrained "b" (by decide)).1 true,
   (c8_bare_depends_unconstrained "b" (by decide)).2 "9.9" "zzz_42"⟩

/-- C4: a supplied (truthy) hash that matches the computed digest passes
without any size or archive check (the size argument and the `tarOk`
behavior in `env` are arbitrary); with no truthy hash, a supplied truthy
size differing from the actual size removes with the size-mismatch reason;
a supplied truthy hash that mismatches removes; and on every input the
function returns the path (never raises). -/
theorem c4_validate_behavior (env : ValidateEnv) (filename : String)
    (content : List Nat) :
    (∀ m size, m ≠ "" → env.md5Hex content = m →
      validateModel env filename content (some m) size = (filename, none)) ∧
    (∀ md5 s, (md5 = none ∨ md5 = some "") → s ≠ 0 → s ≠ content.length →
      validateModel env filename content md5 (some s) =
        (filename,
          some ("Removing: " ++ filename ++ ". Reason: Failed size test"))) ∧
    (∀ m size, m ≠ "" → env.md5Hex content ≠ m →
      validateModel env filename content (some m) size =
        removePackage filename
          ("Failed md5 validation. Expected: " ++ env.md5Hex content ++
            ". Computed: " ++ m)) ∧
    (∀ md5 size, (validateModel env filename content md5 size).1 = filename) := by
  refine ⟨?_, ?_, ?_, ?_⟩
  · intro m size hm hmatch
    simp [validateModel, hm, hmatch]
  · intro md5 s hmd5 hs hsz
    rcases hmd5 with h | h <;> subst h <;>
      simp [validateModel, validateSizeTar, removePackage, hs, hsz,
        String.append_assoc]
  · intro m size hm hmiss
    simp [validateModel, hm, hmiss]
  · intro md5 size
    cases md5 with
    | none =>
      simp only [validateModel, validateSizeTar]
      split
      · rfl
      · split <;> rfl
    | some m =>
      simp only [validateModel]
      split
      · simp only [validateSizeTar]
        split
        · rfl
        · split <;> rfl
      · split <;> rfl

/-- Witness for C4: a toy digest environment; hash match passes despite a
wrong size and an unreadable archive, and a wrong size with no hash
removes with the size reason. -/
theorem c4_validate_behavior_witness :
    validateModel ⟨fun c => "h" ++ toString c.length, fun _ => false⟩
      "p.tar.bz2" [1, 2, 3] (some "h3") (some 7) = ("p.tar.bz2", none) ∧
    validateModel ⟨fun c => "h" ++ toString c.length, fun _ => false⟩
      "p.tar.bz2" [1, 2, 3] none (some 7) =
      ("p.tar.bz2", some "Removing: p.tar.bz2. Reason: Failed size test") ∧
    (validateModel ⟨fun c => "h" ++ toString c.length, fun _ => false⟩
      "p.tar.bz2" [1, 2, 3] (some "wrong") none).1 = "p.tar.bz2" := by
  have h := c4_validate_behavior
    ⟨fun c => "h" ++ toString c.length, fun _ => false⟩ "p.tar.bz2" [1, 2, 3]
  exact ⟨h.1 "h3" (some 7) (by decide) (by decide),
    h.2.1 none 7 (Or.inl rfl) (by decide) (by decide),
    h.2.2.2 (some "wrong") none⟩

/-- With a fetch that fails on every attempt, the retry loop runs attempt
`c+1 .. n` and ends by re-raising the last exception at attempt `n`. -/
theorem retry_always_fails {E : Type} (fetch : Nat → Except E Nat)
    (errf : Nat → E) (hf : ∀ i, fetch i = .error (errf i)) (n : Nat) :
    ∀ (fuel c : Nat), c < n → n ≤ c + fuel →
      retryLoopF fetch (n : Int) fuel c = (.raised (errf n), n) := by
  intro fuel
  induction fuel with
  | zero => intro c h1 h2; omega
  | succ fuel ih =>
    intro c h1 h2
    rw [retryLoopF]
    have hc : ((c : Int) < (n : Int)) := by exact_mod_cast h1
    rw [if_pos hc]
    simp only [hf (c + 1)]
    by_cases hc' : c + 1 < n
    · have : ((c + 1 : Nat) : Int) < (n : Int) := by exact_mod_cast hc'
      rw [if_pos this]
      exact ih (c + 1) hc' (by omega)
    · have hceq : c + 1 = n := by omega
      have : ¬ (((c + 1 : Nat) : Int) < (n : Int)) := by
        rw [not_lt]
        exact_mod_cast Nat.le_of_eq hceq.symm
      rw [if_neg this]
      rw [hceq]

/-- C5: for every `max_retries = n ≥ 1` and every always-failing fetch,
`_download_backoff_retry` makes exactly `n` download attempts (the
returned counter) and re-raises the exception of the `n`-th attempt. -/
theorem c5_retry_exhaustion {E : Type} (fetch : Nat → Except E Nat)
    (errf : Nat → E) (hf : ∀ i, fetch i = .error (errf i)) (n : Nat)
    (hn : 1 ≤ n) :
    downloadBackoffRetry fetch (n : Int) = (.raised (errf n), n) := by
  unfold downloadBackoffRetry
  rw [Int.toNat_natCast]
  exact retry_always_fails fetch errf hf n n 0 (by omega) (by omega)

/-- Witness for C5: an always-failing fetch with `max_retries = 3` raises
after exactly 3 attempts. -/
theorem c5_retry_exhaustion_witness :
    downloadBackoffRetry (fun _ => (.error 0 : Except Nat Nat)) (3 : Int) =
      (.raised 0, 3) :=
  c5_retry_exhaustion (fun _ => .error 0) (fun _ => 0) (fun _ => rfl) 3
    (by decide)

/-- C10: for every `max_retries ≤ 0` the retry loop body never executes:
no attempt is made (counter 0) and the outcome is neither a byte count nor
a re-raised download error but the `UnboundLocalError` on `rtn`. -/
theorem c10_nonpositive_retries_unbound_local {E : Type}
    (fetch : Nat → Except E Nat) (maxRetries : Int) (h : maxRetries ≤ 0) :
    downloadBackoffRetry fetch maxRetries = (.unboundLocalRtn, 0) := by
  unfold downloadBackoffRetry
  rw [Int.toNat_of_nonpos h]
  rw [retryLoopF]

/-- Witness for C10 at `max_retries = 0` (there is no attempt, even though
the fetch would succeed). -/
theorem c10_nonpositive_retries_unbound_local_witness :
    downloadBackoffRetry (fun _ => (.ok 17 : Except Nat Nat)) 0 =
      (.unboundLocalRtn, 0) :=
  c10_nonpositive_retries_unbound_local (fun _ => .ok 17) 0 (by decide)

/-! ## Serialization lemmas: the line-stripping pass is the identity on
the dumped text -/

theorem goodPairsB_tail {c : Char} {rest : List Char}
    (h : goodPairsB (c :: rest) = true) : goodPairsB rest = true := by
  cases rest with
  | nil => rfl
  | cons b r =>
    rw [goodPairsB] at h
    simp only [Bool.and_eq_true] at h
    exact h.2

theorem splitOnCh_cons_sep (sep : Char) (rest : List Char) :
    splitOnCh sep (sep :: rest) = [] :: splitOnCh sep rest := by
  rw [splitOnCh]
  simp

theorem splitOnCh_cons_ne (sep c : Char) (rest : List Char) (h : c ≠ sep)
    {g : List Char} {gs : List (List Char)}
    (hsp : splitOnCh sep rest = g :: gs) :
    splitOnCh sep (c :: rest) = (c :: g) :: gs := by
  rw [splitOnCh]
  simp only [h, if_false]
  rw [hsp]

theorem joinNl_single (a : List Char) : joinNl [a] = a := by
  simp [joinNl, List.intersperse]

theorem lastNotWs_tail {c : Char} {rest : List Char}
    (h : ∀ d, (c :: rest).getLast? = some d → isPyWs d = false)
    (hne : rest ≠ []) :
    ∀ d, rest.getLast? = some d → isPyWs d = false := by
  intro d hd
  apply h
  cases rest with
  | nil => exact absurd rfl hne
  | cons b r => rw [List.getLast?_cons_cons]; exact hd

theorem splitOnCh_ne_nil (sep : Char) (l : List Char) :
    splitOnCh sep l ≠ [] := by
  cases l with
  | nil => simp [splitOnCh]
  | cons c rest =>
    rw [splitOnCh]
    by_cases hc : c = sep
    · simp [hc]
    · simp only [hc, if_false]
      cases splitOnCh sep rest <;> simp

theorem joinNl_cons (a : List Char) (X : List (List Char)) (h : X ≠ []) :
    joinNl (a :: X) = a ++ '\n' :: joinNl X := by
  cases X with
  | nil => exact absurd rfl h
  | cons b Y =>
    simp [joinNl, List.intersperse]

theorem joinNl_splitOnCh (l : List Char) :
    joinNl (splitOnCh '\n' l) = l := by
  induction l with
  | nil => rfl
  | cons c rest ih =>
    by_cases hc : c = '\n'
    · subst hc
      rw [splitOnCh_cons_sep]
      rw [joinNl_cons _ _ (splitOnCh_ne_nil _ _)]
      rw [ih]
      rfl
    · cases hsp : splitOnCh '\n' rest with
      | nil => exact absurd hsp (splitOnCh_ne_nil _ _)
      | cons g gs =>
        rw [splitOnCh_cons_ne _ _ _ hc hsp]
        rw [hsp] at ih
        cases gs with
        | nil =>
          rw [joinNl_single] at ih
          rw [joinNl_single, ih]
        | cons g2 gs2 =>
          rw [joinNl_cons _ _ (by simp)] at ih ⊢
          rw [List.cons_append]
          rw [ih]

theorem splitOnCh_getLast_ne (l : List Char) (hne : l ≠ [])
    (hl : l.getLast? ≠ some '\n') :
    (splitOnCh '\n' l).getLast? ≠ some [] := by
  induction l with
  | nil => exact absurd rfl hne
  | cons c rest ih =>
    by_cases hc : c = '\n'
    · subst hc
      have hrest : rest ≠ [] := by
        intro h
        subst h
        simp at hl
      rw [splitOnCh_cons_sep]
      have hlr : rest.getLast? ≠ some '\n' := by
        cases rest with
        | nil => exact absurd rfl hrest
        | cons b r => rw [List.getLast?_cons_cons] at hl; exact hl
      have ihr := ih hrest hlr
      cases hsp : splitOnCh '\n' rest with
      | nil => exact absurd hsp (splitOnCh_ne_nil _ _)
      | cons g gs =>
        rw [hsp] at ihr
        rw [List.getLast?_cons_cons]
        exact ihr
    · by_cases hrest : rest = []
      · subst hrest
        have : splitOnCh '\n' [c] = [[c]] :=
          splitOnCh_cons_ne '\n' c [] hc rfl
        rw [this]
        simp
      · have hlr : rest.getLast? ≠ some '\n' := by
          cases rest with
          | nil => exact absurd rfl hrest
          | cons b r => rw [List.getLast?_cons_cons] at hl; exact hl
        have ihr := ih hrest hlr
        cases hsp : splitOnCh '\n' rest with
        | nil => exact absurd hsp (splitOnCh_ne_nil _ _)
        | cons g gs =>
          rw [splitOnCh_cons_ne _ _ _ hc hsp]
          rw [hsp] at ihr
          cases gs with
          | nil =>
            intro h
            have h0 : ([(c :: g)] : List (List Char)).getLast?
                = some (c :: g) := rfl
            rw [h0] at h
            simp at h
          | cons g2 gs2 =>
            rw [List.getLast?_cons_cons] at ihr ⊢
            exact ihr

theorem pyrstripWs_eq_self (l : List Char)
    (h : ∀ c, l.getLast? = some c → isPyWs c = false) :
    pyrstripWs l = l := by
  unfold pyrstripWs
  cases hrev : l.reverse with
  | nil =>
    have : l = [] := by simpa using congrArg List.reverse hrev
    simp [this]
  | cons d t =>
    have hd : l.getLast? = some d := by
      rw [← List.head?_reverse]
      rw [hrev]
      rfl
    rw [List.dropWhile_cons, h d hd]
    simp only [Bool.false_eq_true, if_false]
    rw [← hrev, List.reverse_reverse]

theorem goodPairs_beforeNl :
    ∀ (pre suffix : List Char),
      goodPairsB (pre ++ '\n' :: suffix) = true →
      ∀ c, pre.getLast? = some c → isPyWs c = false := by
  intro pre
  induction pre with
  | nil => intro _ _ c hc; cases hc
  | cons x p ih =>
    intro suffix hgp c hc
    cases p with
    | nil =>
      have h0 : ([x] : List Char).getLast? = some x := rfl
      have hx : c = x := by
        have := h0.symm.trans hc
        injection this with h1
        exact h1.symm
      subst hx
      rw [List.cons_append, List.nil_append, goodPairsB] at hgp
      simp only [Bool.and_eq_true] at hgp
      have := hgp.1
      simpa using this
    | cons y p' =>
      rw [List.cons_append, List.cons_append, goodPairsB] at hgp
      simp only [Bool.and_eq_true] at hgp
      have h2 := hgp.2
      rw [List.getLast?_cons_cons] at hc
      exact ih suffix h2 c hc

theorem stripCore_eq_self (l : List Char) (hgp : goodPairsB l = true)
    (hlast : ∀ c, l.getLast? = some c → isPyWs c = false) :
    joinNl ((splitOnCh '\n' l).map pyrstripWs) = l := by
  induction l with
  | nil => rfl
  | cons c rest ih =>
    by_cases hc : c = '\n'
    · subst hc
      cases hrest : rest with
      | nil =>
        exfalso
        have := hlast '\n' (by rw [hrest]; rfl)
        simp [isPyWs] at this
      | cons b r =>
        rw [← hrest]
        rw [splitOnCh_cons_sep, List.map_cons]
        rw [joinNl_cons _ _ (by
          intro h
          exact splitOnCh_ne_nil '\n' rest (List.map_eq_nil_iff.mp h))]
        rw [ih (goodPairsB_tail hgp)
          (lastNotWs_tail hlast (by rw [hrest]; simp))]
        rfl
    · cases hsp : splitOnCh '\n' rest with
      | nil => exact absurd hsp (splitOnCh_ne_nil _ _)
      | cons g gs =>
        rw [splitOnCh_cons_ne _ _ _ hc hsp]
        cases gs with
        | nil =>
          have hrg : rest = g := by
            have := joinNl_splitOnCh rest
            rw [hsp, joinNl_single] at this
            exact this.symm
          subst hrg
          rw [List.map_cons, List.map_nil, joinNl_single]
          exact pyrstripWs_eq_self _ hlast
        | cons g2 gs2 =>
          have hdecomp : rest = g ++ '\n' :: joinNl (g2 :: gs2) := by
            have := joinNl_splitOnCh rest
            rw [hsp, joinNl_cons _ _ (by simp)] at this
            exact this.symm
          have hrest_ne : rest ≠ [] := by
            rw [hdecomp]; simp
          have ihr := ih (goodPairsB_tail hgp) (lastNotWs_tail hlast hrest_ne)
          rw [hsp] at ihr
          rw [List.map_cons] at ihr ⊢
          rw [joinNl_cons _ _ (by simp)] at ihr ⊢
          have hldecomp : c :: rest
              = (c :: g) ++ '\n' :: joinNl (g2 :: gs2) := by
            rw [hdecomp]; rfl
          have hstripcg : pyrstripWs (c :: g) = c :: g := by

            apply pyrstripWs_eq_self
            intro d hd
            refine goodPairs_beforeNl (c :: g) (joinNl (g2 :: gs2)) ?_ d hd
            rw [← hldecomp]; exact hgp
          have hstripg : pyrstripWs g = g := by
            apply pyrstripWs_eq_self
            intro d hd
            refine goodPairs_beforeNl g (joinNl (g2 :: gs2)) ?_ d hd
            rw [← hdecomp]; exact goodPairsB_tail hgp
          rw [hstripg] at ihr
          have hcancel : joinNl ((g2 :: gs2).map pyrstripWs) =
              joinNl (g2 :: gs2) := by
            have h1 : g ++ '\n' :: joinNl ((g2 :: gs2).map pyrstripWs)
                = g ++ '\n' :: joinNl (g2 :: gs2) := ihr.trans hdecomp
            have h2 := List.append_cancel_left h1
            injection h2
          rw [hstripcg, hcancel, hdecomp]
          rfl

theorem goodPairsB_of_no_nl (l : List Char) (h : ∀ c ∈ l, c ≠ '\n') :
    goodPairsB l = true := by
  induction l with
  | nil => rfl
  | cons a rest ih =>
    cases rest with
    | nil => rfl
    | cons b r =>
      rw [goodPairsB]
      simp only [Bool.and_eq_true, Bool.not_eq_true']
      constructor
      · have : b ≠ '\n' := h b (by simp)
        simp [this]
      · exact ih fun c hc => h c (List.mem_cons_of_mem _ hc)

theorem chunkOk_of_no_nl (l : List Char) (hne : l ≠ [])
    (h : ∀ c ∈ l, c ≠ '\n')
    (hlast : ∀ c, l.getLast? = some c → isPyWs c = false) : chunkOk l :=
  ⟨goodPairsB_of_no_nl l h, hlast, hne⟩

theorem getLast?_mem_of_eq {l : List α} {a : α} (h : l.getLast? = some a) :
    a ∈ l := by
  induction l with
  | nil => cases h
  | cons b r ih =>
    cases r with
    | nil =>
      have : a = b := by
        have h0 : ([b] : List α).getLast? = some b := rfl
        have := h0.symm.trans h
        injection this with h1
        exact h1.symm
      simp [this]
    | cons c t =>
      rw [List.getLast?_cons_cons] at h
      exact List.mem_cons_of_mem _ (ih h)

theorem head?_mem_of_eq {l : List α} {a : α} (h : l.head? = some a) :
    a ∈ l := by
  cases l with
  | nil => cases h
  | cons b r =>
    injection h with h1
    subst h1
    exact List.mem_cons_self _ _

theorem digit_not_ws (c : Char) (h : c.isDigit = true) : isPyWs c = false := by
  simp [Char.isDigit] at h
  have h1 : 48 ≤ c.toNat := h.1
  unfold isPyWs
  have hne : ∀ (d : Char), d.toNat < 48 → (c = d) = False := by
    intro d hd
    simp only [eq_iff_iff, iff_false]
    intro hcd
    subst hcd
    omega
  simp [hne ' ' (by decide), hne '\t' (by decide), hne '\n' (by decide),
    hne '\r' (by decide), hne '\x0b' (by decide), hne '\x0c' (by decide)]

theorem digit_ne_nl (c : Char) (h : c.isDigit = true) : c ≠ '\n' := by
  intro hc
  subst hc
  simp [Char.isDigit] at h

theorem digitChar_isDigit (n : Nat) (h : n < 10) :
    (digitChar n).isDigit = true := by
  interval_cases n <;> decide

theorem natReprF_digits :
    ∀ (fuel n : Nat), ∀ c ∈ natReprF fuel n, c.isDigit = true := by
  intro fuel
  induction fuel with
  | zero => intro n c hc; cases hc
  | succ fuel ih =>
    intro n c hc
    rw [natReprF] at hc
    by_cases hn : n < 10
    · simp only [hn, if_true] at hc
      simp at hc
      rw [hc]
      exact digitChar_isDigit n hn
    · simp only [hn, if_false] at hc
      rcases List.mem_append.mp hc with h | h
      · exact ih (n / 10) c h
      · simp at h
        rw [h]
        exact digitChar_isDigit _ (Nat.mod_lt _ (by omega))

theorem natReprF_ne_nil (fuel n : Nat) :
    natReprF (fuel + 1) n ≠ [] := by
  rw [natReprF]
  by_cases hn : n < 10
  · simp [hn]
  · simp [hn]

theorem hexDigitChar_ne_nl (n : Nat) (h : n < 16) : hexDigitChar n ≠ '\n' := by
  interval_cases n <;> decide

theorem uEscape_no_nl (n : Nat) : ∀ c ∈ uEscape n, c ≠ '\n' := by
  intro c hc
  unfold uEscape at hc
  simp at hc
  rcases hc with h | h | h | h | h | h
  all_goals subst h
  · decide
  · decide
  all_goals exact hexDigitChar_ne_nl _ (Nat.mod_lt _ (by omega))

theorem escapeChar_no_nl (c : Char) : '\n' ∉ escapeChar c := by
  intro hmem
  unfold escapeChar at hmem
  by_cases h1 : c = '"'
  · rw [if_pos h1] at hmem; simp at hmem
  rw [if_neg h1] at hmem
  by_cases h2 : c = '\\'
  · rw [if_pos h2] at hmem; simp at hmem
  rw [if_neg h2] at hmem
  by_cases h3 : c = '\n'
  · rw [if_pos h3] at hmem; simp at hmem
  rw [if_neg h3] at hmem
  by_cases h4 : c = '\r'
  · rw [if_pos h4] at hmem; simp at hmem
  rw [if_neg h4] at hmem
  by_cases h5 : c = '\t'
  · rw [if_pos h5] at hmem; simp at hmem
  rw [if_neg h5] at hmem
  by_cases h6 : c = '\x08'
  · rw [if_pos h6] at hmem; simp at hmem
  rw [if_neg h6] at hmem
  by_cases h7 : c = '\x0c'
  · rw [if_pos h7] at hmem; simp at hmem
  rw [if_neg h7] at hmem
  by_cases h8 : c.toNat < 32 || 126 < c.toNat
  · rw [if_pos h8] at hmem
    by_cases h9 : c.toNat < 65536
    · rw [if_pos h9] at hmem
      exact uEscape_no_nl _ '\n' hmem rfl
    · rw [if_neg h9] at hmem
      rcases List.mem_append.mp hmem with h | h
      · exact uEscape_no_nl _ '\n' h rfl
      · exact uEscape_no_nl _ '\n' h rfl
  · rw [if_neg h8] at hmem
    simp at hmem
    exact h3 hmem.symm

theorem dumpStrJ_no_nl (s : String) : ∀ c ∈ dumpStrJ s, c ≠ '\n' := by
  intro c hc
  unfold dumpStrJ at hc
  rcases List.mem_cons.mp hc with h | h
  · subst h; decide
  · rcases List.mem_append.mp h with h | h
    · rcases List.mem_flatten.mp h with ⟨piece, hp, hcp⟩
      rcases List.mem_map.mp hp with ⟨ch, _, hch⟩
      subst hch
      intro hcn
      subst hcn
      exact escapeChar_no_nl ch hcp
    · simp at h
      subst h
      decide

theorem insByKey_mem {β : Type} (x a : String × β) (l : List (String × β)) :
    a ∈ insByKey x l ↔ a = x ∨ a ∈ l := by
  induction l with
  | nil => simp [insByKey]
  | cons y ys ih =>
    rw [insByKey]
    split
    all_goals simp only [List.mem_cons, ih]
    all_goals try tauto

theorem sortPairsByKey_mem {β : Type} (a : String × β)
    (l : List (String × β)) : a ∈ sortPairsByKey l ↔ a ∈ l := by
  induction l with
  | nil => simp [sortPairsByKey]
  | cons y ys ih =>
    rw [sortPairsByKey, insByKey_mem]
    simp only [List.mem_cons, ih]

theorem goodPairsB_cons (x : Char) (L : List Char)
    (hL : goodPairsB L = true)
    (h : ∀ y, L.head? = some y → (isPyWs x && y = '\n') = false) :
    goodPairsB (x :: L) = true := by
  cases L with
  | nil => rfl
  | cons y r =>
    rw [goodPairsB]
    simp only [Bool.and_eq_true]
    constructor
    · have := h y rfl
      simp only [Bool.not_eq_true']
      simpa using this
    · exact hL

theorem goodPairsB_append (a b : List Char) (ha : goodPairsB a = true)
    (hb : goodPairsB b = true)
    (hglue : ∀ x y, a.getLast? = some x → b.head? = some y →
      (isPyWs x && y = '\n') = false) :
    goodPairsB (a ++ b) = true := by
  induction a with
  | nil => simpa using hb
  | cons x a' ih =>
    cases a' with
    | nil =>
      rw [List.cons_append, List.nil_append]
      apply goodPairsB_cons x b hb
      intro y hy
      exact hglue x y rfl hy
    | cons x2 a'' =>
      rw [List.cons_append]
      apply goodPairsB_cons
      · apply ih (goodPairsB_tail ha)
        intro u v hu hv
        refine hglue u v ?_ hv
        rw [List.getLast?_cons_cons]
        exact hu
      · intro y hy
        rw [List.cons_append] at hy
        have hy' : y = x2 := by
          injection hy with h1
          exact h1.symm
        subst hy'
        rw [goodPairsB] at ha
        simp only [Bool.and_eq_true, Bool.not_eq_true'] at ha
        simpa using ha.1

theorem chunkOk_append {a b : List Char} (ha : chunkOk a) (hb : chunkOk b) :
    chunkOk (a ++ b) := by
  obtain ⟨hpa, hla, hna⟩ := ha
  obtain ⟨hpb, hlb, hnb⟩ := hb
  refine ⟨?_, ?_, by simp [hna]⟩
  · apply goodPairsB_append a b hpa hpb
    intro x y hx _
    rw [hla x hx]
    rfl
  · intro c hc
    rw [List.getLast?_append_of_ne_nil _ hnb] at hc
    exact hlb c hc

theorem chunkOk_cons_nonws (x : Char) (hx : isPyWs x = false)
    {L : List Char} (hL : chunkOk L) : chunkOk (x :: L) := by
  obtain ⟨hp, hl, hn⟩ := hL
  refine ⟨goodPairsB_cons x L hp (fun y _ => by rw [hx]; rfl), ?_, by simp⟩
  intro c hc
  apply hl
  cases hLl : L with
  | nil => exact absurd hLl hn
  | cons z r =>
    subst hLl
    rw [List.getLast?_cons_cons] at hc
    exact hc

theorem chunkOk_cons_headOk (x : Char) {L : List Char} (hL : chunkOk L)
    (hhead : ∀ y, L.head? = some y → y ≠ '\n') : chunkOk (x :: L) := by
  obtain ⟨hp, hl, hn⟩ := hL
  refine ⟨goodPairsB_cons x L hp ?_, ?_, by simp⟩
  · intro y hy
    have := hhead y hy
    simp [this]
  · intro c hc
    apply hl
    cases hLl : L with
    | nil => exact absurd hLl hn
    | cons z r =>
      subst hLl
      rw [List.getLast?_cons_cons] at hc
      exact hc

theorem head?_spaces_append (k : Nat) (b : List Char) :
    (spaces k ++ b).head? = if k = 0 then b.head? else some ' ' := by
  cases k with
  | zero => simp [spaces]
  | succ n => simp [spaces, List.replicate]

theorem chunkOk_spaces_append (k : Nat) {b : List Char} (hb : chunkOk b)
    (hhead : ∀ y, b.head? = some y → isPyWs y = false) :
    chunkOk (spaces k ++ b) := by
  induction k with
  | zero => simpa [spaces] using hb
  | succ n ih =>
    have : spaces (n + 1) ++ b = ' ' :: (spaces n ++ b) := by
      simp [spaces, List.replicate]
    rw [this]
    apply chunkOk_cons_headOk ' ' ih
    intro y hy
    rw [head?_spaces_append] at hy
    split at hy
    · have := hhead y hy
      intro hcon
      subst hcon
      simp [isPyWs] at this
    · injection hy with h1
      subst h1
      simp

/-- A newline, indent, chunk piece: the shape of every line break the
serializer emits. -/
theorem chunkOk_nlIndent (k : Nat) {b : List Char} (hb : chunkOk b)
    (hhead : ∀ y, b.head? = some y → isPyWs y = false) :
    chunkOk ('\n' :: spaces k ++ b) := by
  apply chunkOk_cons_headOk '\n' (chunkOk_spaces_append k hb hhead)
  intro y hy
  rw [head?_spaces_append] at hy
  split at hy
  · have := hhead y hy
    intro hcon
    subst hcon
    simp [isPyWs] at this
  · injection hy with h1
    subst h1
    simp

theorem dumpStrJ_chunk (s : String) :
    chunkOk (dumpStrJ s) ∧
      ∀ y, (dumpStrJ s).head? = some y → isPyWs y = false := by
  constructor
  · apply chunkOk_of_no_nl _ (by simp [dumpStrJ]) (dumpStrJ_no_nl s)
    intro c hc
    unfold dumpStrJ at hc
    have h0 : ('"' :: ((s.data.map escapeChar).flatten ++ ['"'])).getLast?
        = some '"' := by
      have h1 : '"' :: ((s.data.map escapeChar).flatten ++ ['"'])
          = ('"' :: (s.data.map escapeChar).flatten) ++ ['"'] := by simp
      rw [h1]
      exact List.getLast?_concat _
    have := h0.symm.trans hc
    injection this with h1
    subst h1
    decide
  · intro y hy
    unfold dumpStrJ at hy
    injection hy with h1
    subst h1
    decide

theorem natRepr_mem_head {m : Nat} {y : Char}
    (hy : (natRepr m).head? = some y) : y.isDigit = true :=
  natReprF_digits (m + 1) m y (head?_mem_of_eq hy)

theorem intRepr_chunk (n : Int) :
    chunkOk (intRepr n) ∧
      ∀ y, (intRepr n).head? = some y → isPyWs y = false := by
  have hnatchunk : ∀ m : Nat, chunkOk (natRepr m) := by
    intro m
    apply chunkOk_of_no_nl _ (natReprF_ne_nil m m)
    · intro c hc
      exact digit_ne_nl c (natReprF_digits (m + 1) m c hc)
    · intro c hc
      exact digit_not_ws c
        (natReprF_digits (m + 1) m c (getLast?_mem_of_eq hc))
  constructor
  · unfold intRepr
    split
    · exact chunkOk_cons_nonws '-' (by decide) (hnatchunk _)
    · exact hnatchunk _
  · intro y hy
    unfold intRepr at hy
    split at hy
    · injection hy with h1
      subst h1
      decide
    · exact digit_not_ws y (natRepr_mem_head hy)

/-- Every line of well-shaped text is already right-stripped. -/
theorem lines_rstrip_id (l : List Char) (hgp : goodPairsB l = true)
    (hlast : ∀ c, l.getLast? = some c → isPyWs c = false) :
    ∀ line ∈ splitOnCh '\n' l, pyrstripWs line = line := by
  induction l with
  | nil =>
    intro line hline
    simp [splitOnCh] at hline
    simp [hline, pyrstripWs]
  | cons c rest ih =>
    intro line hline
    by_cases hc : c = '\n'
    · subst hc
      rw [splitOnCh_cons_sep] at hline
      cases hrest : rest with
      | nil =>
        exfalso
        have := hlast '\n' (by rw [hrest]; rfl)
        simp [isPyWs] at this
      | cons b r =>
        rcases List.mem_cons.mp hline with h | h
        · simp [h, pyrstripWs]
        · exact ih (goodPairsB_tail hgp)
            (lastNotWs_tail hlast (by rw [hrest]; simp)) line h
    · cases hsp : splitOnCh '\n' rest with
      | nil => exact absurd hsp (splitOnCh_ne_nil _ _)
      | cons g gs =>
        rw [splitOnCh_cons_ne _ _ _ hc hsp] at hline
        cases gs with
        | nil =>
          have hrg : rest = g := by
            have := joinNl_splitOnCh rest
            rw [hsp, joinNl_single] at this
            exact this.symm
          subst hrg
          rcases List.mem_cons.mp hline with h | h
          · rw [h]
            exact pyrstripWs_eq_self _ hlast
          · simp at h
        | cons g2 gs2 =>
          have hdecomp : rest = g ++ '\n' :: joinNl (g2 :: gs2) := by
            have := joinNl_splitOnCh rest
            rw [hsp, joinNl_cons _ _ (by simp)] at this
            exact this.symm
          have hrest_ne : rest ≠ [] := by rw [hdecomp]; simp
          have ihr := ih (goodPairsB_tail hgp) (lastNotWs_tail hlast hrest_ne)
          rw [hsp] at ihr
          rcases List.mem_cons.mp hline with h | h
          · rw [h]
            apply pyrstripWs_eq_self
            intro d hd
            refine goodPairs_beforeNl (c :: g) (joinNl (g2 :: gs2)) ?_ d hd
            have : c :: rest = (c :: g) ++ '\n' :: joinNl (g2 :: gs2) := by
              rw [hdecomp]; rfl
            rw [← this]
            exact hgp
          · exact ihr line (List.mem_cons_of_mem _ h)

theorem stripData_eq_self (l : List Char) (hgp : goodPairsB l = true)
    (hlast : ∀ c, l.getLast? = some c → isPyWs c = false) (hne : l ≠ []) :
    stripData l = l := by
  unfold stripData
  have hlnl : l.getLast? ≠ some '\n' := by
    intro h
    have := hlast '\n' h
    simp [isPyWs] at this
  have hgl := splitOnCh_getLast_ne l hne hlnl
  have hsplit : pysplitlinesNl l = splitOnCh '\n' l := by
    unfold pysplitlinesNl
    simp only [hne, if_false]
    split
    · rename_i hcontra
      exact absurd hcontra hgl
    · rfl
  rw [hsplit]
  exact stripCore_eq_self l hgp hlast

/-! ### Parser stepping lemmas -/

theorem skipWs_cons_not_ws (c : Char) (l : List Char)
    (hc : jsonWs c = false) : skipWs (c :: l) = c :: l := by
  unfold skipWs
  rw [List.dropWhile_cons, hc]
  simp only [Bool.false_eq_true, if_false]

theorem skipWs_append_ws (w l : List Char)
    (hw : ∀ c ∈ w, jsonWs c = true) : skipWs (w ++ l) = skipWs l := by
  induction w with
  | nil => rfl
  | cons c t ih =>
    have h1 : skipWs (c :: (t ++ l)) = skipWs (t ++ l) := by
      unfold skipWs
      rw [List.dropWhile_cons, hw c (by simp), if_pos rfl]
    rw [List.cons_append, h1]
    exact ih fun d hd => hw d (List.mem_cons_of_mem _ hd)

theorem skipWs_ws_append_cons (w : List Char) (c : Char) (t : List Char)
    (hw : ∀ d ∈ w, jsonWs d = true) (hc : jsonWs c = false) :
    skipWs (w ++ c :: t) = c :: t := by
  rw [skipWs_append_ws w _ hw, skipWs_cons_not_ws c t hc]

theorem mem_nl_spaces_ws (k : Nat) :
    ∀ d ∈ '\n' :: spaces k, jsonWs d = true := by
  intro d hd
  rcases List.mem_cons.mp hd with h | h
  · subst h; decide
  · unfold spaces at h
    rw [List.eq_of_mem_replicate h]
    decide

theorem jsonWs_false_of_isPyWs_false {c : Char} (h : isPyWs c = false) :
    jsonWs c = false := by
  unfold isPyWs at h
  unfold jsonWs
  simp only [Bool.or_eq_false_iff] at h ⊢
  exact ⟨⟨⟨h.1.1.1.1.1, h.1.1.1.1.2⟩, h.1.1.1.2⟩, h.1.1.2⟩

theorem pParseV_skipLeadWs (fuel : Nat) (w l : List Char)
    (hw : ∀ c ∈ w, jsonWs c = true) :
    pParseV fuel (w ++ l) = pParseV fuel l := by
  cases fuel with
  | zero => rfl
  | succ f =>
    simp only [pParseV]
    rw [skipWs_append_ws w l hw]

theorem pParseItems_skipLeadWs (fuel : Nat) (w l : List Char)
    (hw : ∀ c ∈ w, jsonWs c = true) :
    pParseItems fuel (w ++ l) = pParseItems fuel l := by
  cases fuel with
  | zero => rfl
  | succ f =>
    simp only [pParseItems]
    rw [pParseV_skipLeadWs f w l hw]

theorem pParseEntries_skipLeadWs (fuel : Nat) (w l : List Char)
    (hw : ∀ c ∈ w, jsonWs c = true) :
    pParseEntries fuel (w ++ l) = pParseEntries fuel l := by
  cases fuel with
  | zero => rfl
  | succ f =>
    simp only [pParseEntries]
    rw [skipWs_append_ws w l hw]

theorem pParseV_cons_null (f : Nat) (rest : List Char) :
    pParseV (f + 1) ('n' :: 'u' :: 'l' :: 'l' :: rest) =
      some (.jnull, rest) := rfl

theorem pParseV_cons_true (f : Nat) (rest : List Char) :
    pParseV (f + 1) ('t' :: 'r' :: 'u' :: 'e' :: rest) =
      some (.jbool true, rest) := rfl

theorem pParseV_cons_false (f : Nat) (rest : List Char) :
    pParseV (f + 1) ('f' :: 'a' :: 'l' :: 's' :: 'e' :: rest) =
      some (.jbool false, rest) := rfl

theorem pParseV_cons_quote (f : Nat) (X : List Char) :
    pParseV (f + 1) ('"' :: X) =
      (parseStringBody X).map (fun p => (.jstr (String.mk p.1), p.2)) := rfl

theorem pParseV_cons_lbrack (f : Nat) (X : List Char) :
    pParseV (f + 1) ('[' :: X) =
      (let r1 := skipWs X
       if r1.head? = some ']' then some (.jarr [], r1.tail)
       else
         match pParseItems f r1 with
         | some (xs, r2) => some (.jarr xs, r2)
         | none => none) := rfl

theorem pParseV_cons_lbrace (f : Nat) (X : List Char) :
    pParseV (f + 1) ('\x7b' :: X) =
      (let r1 := skipWs X
       if r1.head? = some '\x7d' then some (.jobj [], r1.tail)
       else
         match pParseEntries f r1 with
         | some (kvs, r2) => some (.jobj kvs, r2)
         | none => none) := rfl

theorem head?_append_ne_nil {α : Type} (a t : List α) (h : a ≠ []) :
    (a ++ t).head? = a.head? := by
  cases a with
  | nil => exact absurd rfl h
  | cons x r => rfl

theorem escapeChar_good (c : Char) (hc : goodCharB c = true) :
    escapeChar c = [c] := by
  unfold goodCharB at hc
  simp only [Bool.and_eq_true, decide_eq_true_eq] at hc
  obtain ⟨⟨⟨h1, h2⟩, h3⟩, h4⟩ := hc
  have hlo : ∀ d : Char, d.toNat < 0x20 → c ≠ d := by
    intro d hd he
    subst he
    omega
  unfold escapeChar
  rw [if_neg h3, if_neg h4, if_neg (hlo '\n' (by decide)),
    if_neg (hlo '\r' (by decide)), if_neg (hlo '\t' (by decide)),
    if_neg (hlo '\x08' (by decide)), if_neg (hlo '\x0c' (by decide)),
    if_neg ?hrange]
  case hrange =>
    simp only [Bool.or_eq_true, decide_eq_true_eq, not_or, not_lt]
    omega

theorem mapEscape_good (l : List Char) (hl : l.all goodCharB = true) :
    (l.map escapeChar).flatten = l := by
  induction l with
  | nil => rfl
  | cons c t ih =>
    simp only [List.all_cons, Bool.and_eq_true] at hl
    rw [List.map_cons, List.flatten_cons, escapeChar_good c hl.1, ih hl.2]
    rfl

theorem dumpStrJ_good (s : String) (hs : goodStrB s = true) :
    dumpStrJ s = '"' :: (s.data ++ ['"']) := by
  unfold goodStrB at hs
  unfold dumpStrJ
  rw [mapEscape_good s.data hs, List.cons_append]

theorem parseStringBody_good (l : List Char) (hl : l.all goodCharB = true)
    (t : List Char) :
    parseStringBody (l ++ '"' :: t) = some (l, t) := by
  induction l with
  | nil =>
    rw [List.nil_append]
    unfold parseStringBody
    rw [if_pos rfl]
  | cons c r ih =>
    simp only [List.all_cons, Bool.and_eq_true] at hl
    have hgc := hl.1
    unfold goodCharB at hgc
    simp only [Bool.and_eq_true, decide_eq_true_eq] at hgc
    obtain ⟨⟨⟨h1, h2⟩, h3⟩, h4⟩ := hgc
    rw [List.cons_append]
    unfold parseStringBody
    rw [if_neg h3, if_neg h4, ih hl.2]
    rfl

theorem takeWhile_digits_append (a t : List Char)
    (ha : ∀ c ∈ a, c.isDigit = true)
    (ht : ∀ y, t.head? = some y → y.isDigit = false) :
    (a ++ t).takeWhile Char.isDigit = a := by
  induction a with
  | nil =>
    cases t with
    | nil => rfl
    | cons y r =>
      rw [List.nil_append, List.takeWhile_cons, ht y rfl]
      simp only [Bool.false_eq_true, if_false]
  | cons c r ih =>
    rw [List.cons_append, List.takeWhile_cons, ha c (by simp), if_pos rfl,
      ih fun d hd => ha d (List.mem_cons_of_mem _ hd)]

theorem parseDigits_spec (a t : List Char) (hne : a ≠ [])
    (ha : ∀ c ∈ a, c.isDigit = true)
    (ht : ∀ y, t.head? = some y → y.isDigit = false) :
    parseDigits (a ++ t) = some (digitsToNat a, t) := by
  unfold parseDigits
  simp only [takeWhile_digits_append a t ha ht]
  rw [if_neg hne, List.drop_left]

theorem digitsToNat_append_digit (a : List Char) (c : Char) :
    digitsToNat (a ++ [c]) = 10 * digitsToNat a + (c.toNat - 48) := by
  unfold digitsToNat
  rw [List.foldl_append]
  rfl

theorem digitChar_toNat (n : Nat) (h : n < 10) :
    (digitChar n).toNat - 48 = n := by
  interval_cases n <;> decide

theorem digitsToNat_single (n : Nat) (h : n < 10) :
    digitsToNat [digitChar n] = n := by
  unfold digitsToNat
  simp only [List.foldl_cons, List.foldl_nil, Nat.mul_zero, Nat.zero_add]
  exact digitChar_toNat n h

theorem digitsToNat_natReprF : ∀ fuel n, n ≤ fuel →
    digitsToNat (natReprF (fuel + 1) n) = n := by
  intro fuel
  induction fuel with
  | zero =>
    intro n hn
    have h0 : n = 0 := Nat.le_zero.mp hn
    subst h0
    decide
  | succ f ih =>
    intro n hn
    rw [natReprF]
    by_cases h10 : n < 10
    · rw [if_pos h10]
      exact digitsToNat_single n h10
    · rw [if_neg h10, digitsToNat_append_digit,
        ih (n / 10) (by omega), digitChar_toNat (n % 10) (by omega)]
      omega

theorem digitsToNat_natRepr (n : Nat) : digitsToNat (natRepr n) = n :=
  digitsToNat_natReprF n n (Nat.le_refl n)

theorem natRepr_all_digits (n : Nat) :
    ∀ c ∈ natRepr n, c.isDigit = true :=
  fun c hc => natReprF_digits (n + 1) n c hc

theorem parseIntTok_natRepr (n : Nat) (t : List Char)
    (ht : ∀ y, t.head? = some y → y.isDigit = false) :
    parseIntTok (natRepr n ++ t) = some ((n : Int), t) := by
  unfold parseIntTok
  rw [if_neg ?hminus]
  case hminus =>
    rw [head?_append_ne_nil (natRepr n) t (natReprF_ne_nil n n)]
    intro hcon
    exact absurd (natRepr_mem_head hcon) (by decide)
  rw [parseDigits_spec (natRepr n) t (natReprF_ne_nil n n)
    (natRepr_all_digits n) ht]
  rw [Option.map_some']
  rw [digitsToNat_natRepr]

theorem parseIntTok_intRepr (n : Int) (t : List Char)
    (ht : ∀ y, t.head? = some y → y.isDigit = false) :
    parseIntTok (intRepr n ++ t) = some (n, t) := by
  unfold intRepr
  by_cases hn : n < 0
  · rw [if_pos hn, List.cons_append]
    unfold parseIntTok
    simp only [List.head?_cons, List.tail_cons]
    rw [if_pos trivial]
    rw [parseDigits_spec (natRepr (-n).toNat) t
      (natReprF_ne_nil _ _) (natRepr_all_digits _) ht]
    rw [Option.map_some', digitsToNat_natRepr]
    have : (((-n).toNat : Int)) = -n := Int.toNat_of_nonneg (by omega)
    rw [this]
    simp
  · rw [if_neg hn, parseIntTok_natRepr n.toNat t ht,
      Int.toNat_of_nonneg (by omega)]

theorem pParseV_cons_other (f : Nat) (c : Char) (r : List Char)
    (hn : c ≠ 'n') (ht : c ≠ 't') (hf : c ≠ 'f') (hq : c ≠ '"')
    (hb : c ≠ '[') (ho : c ≠ '\x7b') (hw : jsonWs c = false) :
    pParseV (f + 1) (c :: r) =
      (parseIntTok (c :: r)).map fun p => (.jnum p.1, p.2) := by
  simp only [pParseV]
  rw [skipWs_cons_not_ws c r hw]
  simp only []
  rw [if_neg hn, if_neg ht, if_neg hf, if_neg hq, if_neg hb, if_neg ho]

/-! ### The serialized form is chunk-shaped -/

theorem chunkGood_append {a b : List Char} (ha : chunkGood a)
    (hb : chunkGood b) : chunkGood (a ++ b) := by
  refine ⟨chunkOk_append ha.1 hb.1, ?_⟩
  intro y hy
  rw [head?_append_ne_nil a b ha.1.2.2] at hy
  exact ha.2 y hy

theorem chunkGood_cons (x : Char) (hx : isPyWs x = false) {L : List Char}
    (hL : chunkOk L) : chunkGood (x :: L) := by
  refine ⟨chunkOk_cons_nonws x hx hL, ?_⟩
  intro y hy
  injection hy with h
  subst h
  exact hx

theorem chunkGood_concrete (a b : Char) {l : List Char}
    (hgp : goodPairsB l = true) (hl : l.getLast? = some a)
    (ha : isPyWs a = false) (hh : l.head? = some b)
    (hb : isPyWs b = false) : chunkGood l := by
  have hne : l ≠ [] := by
    intro h
    subst h
    simp at hl
  refine ⟨⟨hgp, ?_, hne⟩, ?_⟩
  · intro c hc
    have := hl.symm.trans hc
    injection this with h
    subst h
    exact ha
  · intro y hy
    have := hh.symm.trans hy
    injection this with h
    subst h
    exact hb

theorem chunkOk_singleton (c : Char) (hc : isPyWs c = false) :
    chunkOk [c] := by
  refine ⟨rfl, ?_, by simp⟩
  intro d hd
  injection hd with h
  subst h
  exact hc

theorem ne_nl_of_not_ws {y : Char} (h : isPyWs y = false) : y ≠ '\n' := by
  intro hcon
  subst hcon
  exact absurd h (by decide)

theorem arrBody_append_chunk (k : Nat) (items : List (List Char))
    (hitems : ∀ item ∈ items, chunkGood item) {t : List Char}
    (ht : chunkOk t) : chunkOk (arrBody k items ++ t) := by
  induction items with
  | nil => simpa [arrBody] using ht
  | cons item rest ih =>
    rw [arrBody]
    have hrest := ih fun i hi => hitems i (List.mem_cons_of_mem _ hi)
    have hitem := hitems item (by simp)
    simp only [List.cons_append, List.append_assoc]
    apply chunkOk_cons_nonws ',' (by decide)
    apply chunkOk_nlIndent k (chunkOk_append hitem.1 hrest)
    intro y hy
    rw [head?_append_ne_nil item _ hitem.1.2.2] at hy
    exact hitem.2 y hy

theorem assembleArr_chunkGood (ind : Nat) (items : List (List Char))
    (hitems : ∀ item ∈ items, chunkGood item) :
    chunkGood (assembleArr ind items) := by
  cases items with
  | nil =>
    rw [assembleArr]
    exact chunkGood_concrete ']' '[' (by decide) (by decide) (by decide)
      (by decide) (by decide)
  | cons item rest =>
    rw [assembleArr]
    have hrest := fun i hi => hitems i (List.mem_cons_of_mem _ hi)
    have hitem := hitems item (by simp)
    have htail : chunkOk ('\n' :: spaces ind ++ [']']) :=
      chunkOk_nlIndent ind (chunkOk_singleton ']' (by decide))
        (fun y hy => by injection hy with h; subst h; decide)
    have hmid : chunkOk (item ++ (arrBody (ind + 2) rest ++
        ('\n' :: spaces ind ++ [']']))) :=
      chunkOk_append hitem.1 (arrBody_append_chunk _ rest hrest htail)
    simp only [List.cons_append, List.append_assoc]
    apply chunkGood_cons '[' (by decide)
    apply chunkOk_nlIndent (ind + 2) hmid
    intro y hy
    rw [head?_append_ne_nil item _ hitem.1.2.2] at hy
    exact hitem.2 y hy

theorem objBody_append_chunk (k : Nat)
    (entries : List (String × List Char))
    (hentries : ∀ p ∈ entries, chunkGood p.2) {t : List Char}
    (ht : chunkOk t) : chunkOk (objBody k entries ++ t) := by
  induction entries with
  | nil => simpa [objBody] using ht
  | cons p rest ih =>
    obtain ⟨kk, item⟩ := p
    rw [objBody]
    have hrest := ih fun q hq => hentries q (List.mem_cons_of_mem _ hq)
    have hitem := hentries (kk, item) (by simp)
    have hqs := dumpStrJ_chunk kk
    have hX : chunkOk (item ++ (objBody k rest ++ t)) :=
      chunkOk_append hitem.1 hrest
    have hcolon : chunkOk (':' :: ' ' :: (item ++ (objBody k rest ++ t))) := by
      apply chunkOk_cons_nonws ':' (by decide)
      apply chunkOk_cons_headOk ' ' hX
      intro y hy
      rw [head?_append_ne_nil item _ hitem.1.2.2] at hy
      exact ne_nl_of_not_ws (hitem.2 y hy)
    have hkv : chunkOk (dumpStrJ kk ++
        (':' :: ' ' :: (item ++ (objBody k rest ++ t)))) :=
      chunkOk_append hqs.1 hcolon
    simp only [List.cons_append, List.append_assoc]
    apply chunkOk_cons_nonws ',' (by decide)
    apply chunkOk_nlIndent k hkv
    intro y hy
    rw [head?_append_ne_nil _ _ hqs.1.2.2] at hy
    exact hqs.2 y hy

theorem assembleObj_chunkGood (ind : Nat)
    (entries : List (String × List Char))
    (hentries : ∀ p ∈ entries, chunkGood p.2) :
    chunkGood (assembleObj ind entries) := by
  cases entries with
  | nil =>
    rw [assembleObj]
    exact chunkGood_concrete '\x7d' '\x7b' (by decide) (by decide)
      (by decide) (by decide) (by decide)
  | cons p rest =>
    obtain ⟨kk, item⟩ := p
    rw [assembleObj]
    have hrest := fun q hq => hentries q (List.mem_cons_of_mem _ hq)
    have hitem := hentries (kk, item) (by simp)
    have hqs := dumpStrJ_chunk kk
    have htail : chunkOk ('\n' :: spaces ind ++ ['\x7d']) :=
      chunkOk_nlIndent ind (chunkOk_singleton '\x7d' (by decide))
        (fun y hy => by injection hy with h; subst h; decide)
    have hX : chunkOk (item ++ (objBody (ind + 2) rest ++
        ('\n' :: spaces ind ++ ['\x7d']))) :=
      chunkOk_append hitem.1 (objBody_append_chunk _ rest hrest htail)
    have hcolon : chunkOk (':' :: ' ' :: (item ++ (objBody (ind + 2) rest ++
        ('\n' :: spaces ind ++ ['\x7d'])))) := by
      apply chunkOk_cons_nonws ':' (by decide)
      apply chunkOk_cons_headOk ' ' hX
      intro y hy
      rw [head?_append_ne_nil item _ hitem.1.2.2] at hy
      exact ne_nl_of_not_ws (hitem.2 y hy)
    have hkv : chunkOk (dumpStrJ kk ++ (':' :: ' ' :: (item ++
        (objBody (ind + 2) rest ++ ('\n' :: spaces ind ++ ['\x7d']))))) :=
      chunkOk_append hqs.1 hcolon
    simp only [List.cons_append, List.append_assoc]
    apply chunkGood_cons '\x7b' (by decide)
    apply chunkOk_nlIndent (ind + 2) hkv
    intro y hy
    rw [head?_append_ne_nil _ _ hqs.1.2.2] at hy
    exact hqs.2 y hy

mutual

theorem pydumpsV_chunkGood : ∀ (ind : Nat) (v : JVal),
    chunkGood (pydumpsV ind v)
  | ind, .jnull => by
    rw [show pydumpsV ind .jnull = ['n', 'u', 'l', 'l'] from rfl]
    exact chunkGood_concrete 'l' 'n' (by decide) (by decide) (by decide)
      (by decide) (by decide)
  | ind, .jbool true => by
    rw [show pydumpsV ind (.jbool true) = ['t', 'r', 'u', 'e'] from rfl]
    exact chunkGood_concrete 'e' 't' (by decide) (by decide) (by decide)
      (by decide) (by decide)
  | ind, .jbool false => by
    rw [show pydumpsV ind (.jbool false)
        = ['f', 'a', 'l', 's', 'e'] from rfl]
    exact chunkGood_concrete 'e' 'f' (by decide) (by decide) (by decide)
      (by decide) (by decide)
  | ind, .jnum n => intRepr_chunk n
  | ind, .jstr s => dumpStrJ_chunk s
  | ind, .jarr xs => by
    rw [show pydumpsV ind (.jarr xs)
        = assembleArr ind (pydumpsList (ind + 2) xs) from rfl]
    exact assembleArr_chunkGood ind _ (pydumpsList_chunkGood (ind + 2) xs)
  | ind, .jobj kvs => by
    rw [show pydumpsV ind (.jobj kvs)
        = assembleObj ind (sortPairsByKey (pydumpsEntries (ind + 2) kvs))
        from rfl]
    apply assembleObj_chunkGood
    intro p hp
    exact pydumpsEntries_chunkGood (ind + 2) kvs p
      ((sortPairsByKey_mem p _).mp hp)

theorem pydumpsList_chunkGood : ∀ (ind : Nat) (xs : List JVal),
    ∀ item ∈ pydumpsList ind xs, chunkGood item
  | ind, [] => by
    intro item hitem
    simp [pydumpsList] at hitem
  | ind, v :: rest => by
    intro item hitem
    rw [show pydumpsList ind (v :: rest)
        = pydumpsV ind v :: pydumpsList ind rest from rfl] at hitem
    rcases List.mem_cons.mp hitem with h | h
    · subst h
      exact pydumpsV_chunkGood ind v
    · exact pydumpsList_chunkGood ind rest item h

theorem pydumpsEntries_chunkGood : ∀ (ind : Nat)
    (kvs : List (String × JVal)),
    ∀ p ∈ pydumpsEntries ind kvs, chunkGood p.2
  | ind, [] => by
    intro p hp
    simp [pydumpsEntries] at hp
  | ind, kv :: rest => by
    intro p hp
    rw [show pydumpsEntries ind (kv :: rest)
        = (kv.1, pydumpsV ind kv.2) :: pydumpsEntries ind rest from rfl]
      at hp
    rcases List.mem_cons.mp hp with h | h
    · subst h
      exact pydumpsV_chunkGood ind kv.2
    · exact pydumpsEntries_chunkGood ind rest p h

end

theorem pydumps_chunkGood (v : JVal) : chunkGood (pydumps v) :=
  pydumpsV_chunkGood 0 v

/-! ### Sorting commutes with entry-wise dumping and normalisation -/

theorem insByKey_ne_nil {β : Type} (x : String × β)
    (l : List (String × β)) : insByKey x l ≠ [] := by
  cases l with
  | nil => simp [insByKey]
  | cons y ys =>
    rw [insByKey]
    split <;> simp

theorem pydumpsEntries_insByKey (ind : Nat) (x : String × JVal)
    (l : List (String × JVal)) :
    pydumpsEntries ind (insByKey x l)
      = insByKey (x.1, pydumpsV ind x.2) (pydumpsEntries ind l) := by
  obtain ⟨kx, vx⟩ := x
  induction l with
  | nil => rfl
  | cons y ys ih =>
    obtain ⟨ky, vy⟩ := y
    rw [insByKey]
    by_cases h : strLtB ky kx
    · rw [if_pos h]
      rw [show pydumpsEntries ind ((ky, vy) :: insByKey (kx, vx) ys)
          = (ky, pydumpsV ind vy) :: pydumpsEntries ind (insByKey (kx, vx) ys)
          from rfl]
      rw [ih]
      rw [show pydumpsEntries ind ((ky, vy) :: ys)
          = (ky, pydumpsV ind vy) :: pydumpsEntries ind ys from rfl]
      rw [insByKey, if_pos h]
    · rw [if_neg h]
      rw [show pydumpsEntries ind ((kx, vx) :: (ky, vy) :: ys)
          = (kx, pydumpsV ind vx) :: (ky, pydumpsV ind vy)
            :: pydumpsEntries ind ys from rfl]
      rw [show pydumpsEntries ind ((ky, vy) :: ys)
          = (ky, pydumpsV ind vy) :: pydumpsEntries ind ys from rfl]
      rw [insByKey, if_neg h]

theorem pydumpsEntries_sort (ind : Nat) (kvs : List (String × JVal)) :
    sortPairsByKey (pydumpsEntries ind kvs)
      = pydumpsEntries ind (sortPairsByKey kvs) := by
  induction kvs with
  | nil => rfl
  | cons kv rest ih =>
    obtain ⟨k, v⟩ := kv
    rw [show pydumpsEntries ind ((k, v) :: rest)
        = (k, pydumpsV ind v) :: pydumpsEntries ind rest from rfl]
    rw [sortPairsByKey, sortPairsByKey, ih, pydumpsEntries_insByKey]

theorem normEntries_insByKey (x : String × JVal)
    (l : List (String × JVal)) :
    normEntries (insByKey x l)
      = insByKey (x.1, normV x.2) (normEntries l) := by
  obtain ⟨kx, vx⟩ := x
  induction l with
  | nil => rfl
  | cons y ys ih =>
    obtain ⟨ky, vy⟩ := y
    rw [insByKey]
    by_cases h : strLtB ky kx
    · rw [if_pos h]
      rw [show normEntries ((ky, vy) :: insByKey (kx, vx) ys)
          = (ky, normV vy) :: normEntries (insByKey (kx, vx) ys) from rfl]
      rw [ih]
      rw [show normEntries ((ky, vy) :: ys)
          = (ky, normV vy) :: normEntries ys from rfl]
      rw [insByKey, if_pos h]
    · rw [if_neg h]
      rw [show normEntries ((kx, vx) :: (ky, vy) :: ys)
          = (kx, normV vx) :: (ky, normV vy) :: normEntries ys from rfl]
      rw [show normEntries ((ky, vy) :: ys)
          = (ky, normV vy) :: normEntries ys from rfl]
      rw [insByKey, if_neg h]

theorem normEntries_sort (kvs : List (String × JVal)) :
    sortPairsByKey (normEntries kvs)
      = normEntries (sortPairsByKey kvs) := by
  induction kvs with
  | nil => rfl
  | cons kv rest ih =>
    obtain ⟨k, v⟩ := kv
    rw [show normEntries ((k, v) :: rest)
        = (k, normV v) :: normEntries rest from rfl]
    rw [sortPairsByKey, sortPairsByKey, ih, normEntries_insByKey]

theorem jsizeE_insByKey (x : String × JVal) (l : List (String × JVal)) :
    jsizeE (insByKey x l) = 1 + jsizeV x.2 + jsizeE l := by
  obtain ⟨kx, vx⟩ := x
  induction l with
  | nil => rfl
  | cons y ys ih =>
    obtain ⟨ky, vy⟩ := y
    rw [insByKey]
    by_cases h : strLtB ky kx
    · rw [if_pos h]
      rw [show jsizeE ((ky, vy) :: insByKey (kx, vx) ys)
          = 1 + jsizeV vy + jsizeE (insByKey (kx, vx) ys) from rfl]
      rw [ih]
      rw [show jsizeE ((ky, vy) :: ys) = 1 + jsizeV vy + jsizeE ys from rfl]
      omega
    · rw [if_neg h]
      rfl

theorem jsizeE_sort (kvs : List (String × JVal)) :
    jsizeE (sortPairsByKey kvs) = jsizeE kvs := by
  induction kvs with
  | nil => rfl
  | cons kv rest ih =>
    obtain ⟨k, v⟩ := kv
    rw [sortPairsByKey, jsizeE_insByKey, ih]
    rfl

theorem sumItems_insByKey (x : String × List Char)
    (l : List (String × List Char)) :
    sumItems (insByKey x l) = 1 + x.2.length + sumItems l := by
  obtain ⟨kx, vx⟩ := x
  induction l with
  | nil => rfl
  | cons y ys ih =>
    obtain ⟨ky, vy⟩ := y
    rw [insByKey]
    by_cases h : strLtB ky kx
    · rw [if_pos h]
      rw [show sumItems ((ky, vy) :: insByKey (kx, vx) ys)
          = 1 + vy.length + sumItems (insByKey (kx, vx) ys) from rfl]
      rw [ih]
      rw [show sumItems ((ky, vy) :: ys)
          = 1 + vy.length + sumItems ys from rfl]
      omega
    · rw [if_neg h]
      rfl

theorem sumItems_sort (l : List (String × List Char)) :
    sumItems (sortPairsByKey l) = sumItems l := by
  induction l with
  | nil => rfl
  | cons p rest ih =>
    obtain ⟨k, item⟩ := p
    rw [sortPairsByKey, sumItems_insByKey, ih]
    rfl

theorem wfE_iff (es : List (String × JVal)) :
    wfE es = true ↔ ∀ p ∈ es, goodStrB p.1 = true ∧ wfV p.2 = true := by
  induction es with
  | nil => simp [wfE]
  | cons p rest ih =>
    obtain ⟨k, v⟩ := p
    rw [show wfE ((k, v) :: rest)
        = (goodStrB k && wfV v && wfE rest) from rfl]
    simp only [Bool.and_eq_true, List.mem_cons, ih]
    constructor
    · rintro ⟨⟨hk, hv⟩, hrest⟩ p hp
      rcases hp with h | h
      · subst h
        exact ⟨hk, hv⟩
      · exact hrest p h
    · intro h
      exact ⟨⟨(h (k, v) (Or.inl rfl)).1, (h (k, v) (Or.inl rfl)).2⟩,
        fun p hp => h p (Or.inr hp)⟩

theorem wfE_sort (kvs : List (String × JVal)) (h : wfE kvs = true) :
    wfE (sortPairsByKey kvs) = true := by
  rw [wfE_iff] at *
  intro p hp
  exact h p ((sortPairsByKey_mem p kvs).mp hp)

/-! ### The parser fuel drawn from the text length suffices -/

theorem jsizeV_pos (v : JVal) : 1 ≤ jsizeV v := by
  cases v <;> simp [jsizeV]

theorem arrBody_len_ge (k : Nat) (items : List (List Char)) :
    sumLens items ≤ (arrBody k items).length := by
  induction items with
  | nil => simp [sumLens, arrBody]
  | cons item rest ih =>
    rw [arrBody, sumLens]
    simp only [List.length_cons, List.length_append, spaces,
      List.length_replicate]
    omega

theorem assembleArr_len_ge (ind : Nat) (items : List (List Char)) :
    1 + sumLens items ≤ (assembleArr ind items).length := by
  cases items with
  | nil => simp [assembleArr, sumLens]
  | cons item rest =>
    rw [assembleArr, sumLens]
    have := arrBody_len_ge (ind + 2) rest
    simp only [List.length_cons, List.length_append, spaces,
      List.length_replicate]
    omega

theorem objBody_len_ge (k : Nat) (entries : List (String × List Char)) :
    sumItems entries ≤ (objBody k entries).length := by
  induction entries with
  | nil => simp [sumItems, objBody]
  | cons p rest ih =>
    obtain ⟨kk, item⟩ := p
    rw [objBody, show sumItems ((kk, item) :: rest)
        = 1 + item.length + sumItems rest from rfl]
    simp only [List.length_cons, List.length_append, spaces,
      List.length_replicate]
    omega

theorem assembleObj_len_ge (ind : Nat)
    (entries : List (String × List Char)) :
    1 + sumItems entries ≤ (assembleObj ind entries).length := by
  cases entries with
  | nil => simp [assembleObj, sumItems]
  | cons p rest =>
    obtain ⟨kk, item⟩ := p
    rw [assembleObj, show sumItems ((kk, item) :: rest)
        = 1 + item.length + sumItems rest from rfl]
    have := objBody_len_ge (ind + 2) rest
    simp only [List.length_cons, List.length_append, spaces,
      List.length_replicate]
    omega

mutual

theorem jsizeV_le_dumps : ∀ (ind : Nat) (v : JVal),
    jsizeV v ≤ (pydumpsV ind v).length
  | ind, .jnull => by
    rw [show pydumpsV ind .jnull = ['n', 'u', 'l', 'l'] from rfl]
    decide
  | ind, .jbool true => by
    rw [show pydumpsV ind (.jbool true) = ['t', 'r', 'u', 'e'] from rfl]
    decide
  | ind, .jbool false => by
    rw [show pydumpsV ind (.jbool false) = ['f', 'a', 'l', 's', 'e'] from rfl]
    decide
  | ind, .jnum n => by
    rw [show pydumpsV ind (.jnum n) = intRepr n from rfl,
      show jsizeV (.jnum n) = 1 from rfl]
    have hne : intRepr n ≠ [] := by
      unfold intRepr
      split
      · simp
      · exact natReprF_ne_nil _ _
    cases h : intRepr n with
    | nil => exact absurd h hne
    | cons a b => simp
  | ind, .jstr s => by
    rw [show pydumpsV ind (.jstr s) = dumpStrJ s from rfl,
      show jsizeV (.jstr s) = 1 from rfl]
    unfold dumpStrJ
    simp
  | ind, .jarr xs => by
    rw [show pydumpsV ind (.jarr xs)
        = assembleArr ind (pydumpsList (ind + 2) xs) from rfl,
      show jsizeV (.jarr xs) = 1 + jsizeL xs from rfl]
    have h1 := jsizeL_le_sumLens (ind + 2) xs
    have h2 := assembleArr_len_ge ind (pydumpsList (ind + 2) xs)
    omega
  | ind, .jobj kvs => by
    rw [show pydumpsV ind (.jobj kvs)
        = assembleObj ind (sortPairsByKey (pydumpsEntries (ind + 2) kvs))
        from rfl,
      show jsizeV (.jobj kvs) = 1 + jsizeE kvs from rfl]
    have h1 := jsizeE_le_sumItems (ind + 2) kvs
    have h2 := assembleObj_len_ge ind
      (sortPairsByKey (pydumpsEntries (ind + 2) kvs))
    have h3 := sumItems_sort (pydumpsEntries (ind + 2) kvs)
    omega

theorem jsizeL_le_sumLens : ∀ (ind : Nat) (xs : List JVal),
    jsizeL xs ≤ sumLens (pydumpsList ind xs)
  | _, [] => Nat.le_refl 0
  | ind, x :: xs => by
    rw [show jsizeL (x :: xs) = 1 + jsizeV x + jsizeL xs from rfl,
      show pydumpsList ind (x :: xs)
        = pydumpsV ind x :: pydumpsList ind xs from rfl,
      show sumLens (pydumpsV ind x :: pydumpsList ind xs)
        = 1 + (pydumpsV ind x).length + sumLens (pydumpsList ind xs)
        from rfl]
    have h1 := jsizeV_le_dumps ind x
    have h2 := jsizeL_le_sumLens ind xs
    omega

theorem jsizeE_le_sumItems : ∀ (ind : Nat) (kvs : List (String × JVal)),
    jsizeE kvs ≤ sumItems (pydumpsEntries ind kvs)
  | _, [] => Nat.le_refl 0
  | ind, (k, v) :: kvs => by
    rw [show jsizeE ((k, v) :: kvs) = 1 + jsizeV v + jsizeE kvs from rfl,
      show pydumpsEntries ind ((k, v) :: kvs)
        = (k, pydumpsV ind v) :: pydumpsEntries ind kvs from rfl,
      show sumItems ((k, pydumpsV ind v) :: pydumpsEntries ind kvs)
        = 1 + (pydumpsV ind v).length + sumItems (pydumpsEntries ind kvs)
        from rfl]
    have h1 := jsizeV_le_dumps ind v
    have h2 := jsizeE_le_sumItems ind kvs
    omega

end

/-! ### Head characters of serialized values -/

theorem digit_not_jsonWs (c : Char) (h : c.isDigit = true) :
    jsonWs c = false :=
  jsonWs_false_of_isPyWs_false (digit_not_ws c h)

theorem skipWs_head_not_ws (l : List Char)
    (h : ∀ y, l.head? = some y → jsonWs y = false) : skipWs l = l := by
  cases l with
  | nil => rfl
  | cons c r => exact skipWs_cons_not_ws c r (h c rfl)

theorem intRepr_head_cases (n : Int) :
    ∃ c r, intRepr n = c :: r ∧ (c = '-' ∨ c.isDigit = true) := by
  unfold intRepr
  by_cases hn : n < 0
  · rw [if_pos hn]
    exact ⟨'-', _, rfl, Or.inl rfl⟩
  · rw [if_neg hn]
    cases hr : natRepr n.toNat with
    | nil => exact absurd hr (natReprF_ne_nil _ _)
    | cons c r =>
      refine ⟨c, r, rfl, Or.inr ?_⟩
      have hmem : c ∈ natRepr n.toNat := by
        rw [hr]
        simp
      exact natReprF_digits (n.toNat + 1) n.toNat c hmem

theorem pydumpsV_head_spec (ind : Nat) (v : JVal) :
    ∀ y, (pydumpsV ind v).head? = some y →
      y = 'n' ∨ y = 't' ∨ y = 'f' ∨ y = '"' ∨ y = '[' ∨ y = '\x7b' ∨
        y = '-' ∨ y.isDigit = true := by
  intro y hy
  cases v with
  | jnull =>
    have h0 : (pydumpsV ind .jnull).head? = some 'n' := rfl
    have := h0.symm.trans hy
    injection this with h
    subst h
    simp
  | jbool b =>
    cases b with
    | true =>
      have h0 : (pydumpsV ind (.jbool true)).head? = some 't' := rfl
      have := h0.symm.trans hy
      injection this with h
      subst h
      simp
    | false =>
      have h0 : (pydumpsV ind (.jbool false)).head? = some 'f' := rfl
      have := h0.symm.trans hy
      injection this with h
      subst h
      simp
  | jnum n =>
    rw [show pydumpsV ind (.jnum n) = intRepr n from rfl] at hy
    obtain ⟨c, r, hcr, hc⟩ := intRepr_head_cases n
    rw [hcr] at hy
    injection hy with h
    subst h
    rcases hc with h2 | h2
    · subst h2
      simp
    · tauto
  | jstr s =>
    have h0 : (pydumpsV ind (.jstr s)).head? = some '"' := rfl
    have := h0.symm.trans hy
    injection this with h
    subst h
    simp
  | jarr xs =>
    cases xs with
    | nil =>
      have h0 : (pydumpsV ind (.jarr [])).head? = some '[' := rfl
      have := h0.symm.trans hy
      injection this with h
      subst h
      simp
    | cons x xs' =>
      have h0 : (pydumpsV ind (.jarr (x :: xs'))).head? = some '[' := rfl
      have := h0.symm.trans hy
      injection this with h
      subst h
      simp
  | jobj kvs =>
    rw [show pydumpsV ind (.jobj kvs)
        = assembleObj ind (sortPairsByKey (pydumpsEntries (ind + 2) kvs))
        from rfl] at hy
    cases hs : sortPairsByKey (pydumpsEntries (ind + 2) kvs) with
    | nil =>
      rw [hs] at hy
      injection hy with h
      subst h
      simp
    | cons p es2 =>
      obtain ⟨kk, item⟩ := p
      rw [hs] at hy
      injection hy with h
      subst h
      simp

theorem pParseV_arr_empty (f : Nat) (rest : List Char) :
    pParseV (f + 1) ('[' :: ']' :: rest) = some (.jarr [], rest) := rfl

theorem pParseV_obj_empty (f : Nat) (rest : List Char) :
    pParseV (f + 1) ('\x7b' :: '\x7d' :: rest) = some (.jobj [], rest) := rfl

/-- Parser correctness, proved by induction on the fuel (each parser
level consumes one fuel unit, and `jsize` counts the levels). -/
theorem parse_trio : ∀ fuel,
    ParseVOk fuel ∧ ParseItemsOk fuel ∧ ParseEntriesOk fuel := by
  intro fuel
  induction fuel with
  | zero =>
    refine ⟨?_, ?_, ?_⟩
    · intro v ind rest hwf hsz hrest
      exact absurd hsz (by have := jsizeV_pos v; omega)
    · intro x xs ind k rest hwx hwxs hsz
      exfalso
      have h0 : jsizeL (x :: xs) = 1 + jsizeV x + jsizeL xs := rfl
      omega
    · intro ky v es ind k rest hky hv hes hsz
      exfalso
      have h0 : jsizeE ((ky, v) :: es) = 1 + jsizeV v + jsizeE es := rfl
      omega
  | succ f ih =>
    obtain ⟨ihV, ihI, ihE⟩ := ih
    refine ⟨?_, ?_, ?_⟩
    · intro v ind rest hwf hsz hrest
      cases v with
      | jnull =>
        rw [show pydumpsV ind .jnull ++ rest
            = 'n' :: 'u' :: 'l' :: 'l' :: rest from rfl]
        exact pParseV_cons_null f rest
      | jbool b =>
        cases b with
        | true =>
          rw [show pydumpsV ind (.jbool true) ++ rest
              = 't' :: 'r' :: 'u' :: 'e' :: rest from rfl]
          exact pParseV_cons_true f rest
        | false =>
          rw [show pydumpsV ind (.jbool false) ++ rest
              = 'f' :: 'a' :: 'l' :: 's' :: 'e' :: rest from rfl]
          exact pParseV_cons_false f rest
      | jnum n =>
        obtain ⟨c, r, hcr, hc⟩ := intRepr_head_cases n
        have hprops : c ≠ 'n' ∧ c ≠ 't' ∧ c ≠ 'f' ∧ c ≠ '"' ∧ c ≠ '[' ∧
            c ≠ '\x7b' ∧ jsonWs c = false := by
          rcases hc with h | h
          · subst h
            refine ⟨by decide, by decide, by decide, by decide, by decide,
              by decide, by decide⟩
          · exact ⟨fun hcon => by subst hcon; exact absurd h (by decide),
              fun hcon => by subst hcon; exact absurd h (by decide),
              fun hcon => by subst hcon; exact absurd h (by decide),
              fun hcon => by subst hcon; exact absurd h (by decide),
              fun hcon => by subst hcon; exact absurd h (by decide),
              fun hcon => by subst hcon; exact absurd h (by decide),
              digit_not_jsonWs c h⟩
        rw [show pydumpsV ind (.jnum n) = intRepr n from rfl, hcr,
          List.cons_append,
          pParseV_cons_other f c (r ++ rest) hprops.1 hprops.2.1
            hprops.2.2.1 hprops.2.2.2.1 hprops.2.2.2.2.1
            hprops.2.2.2.2.2.1 hprops.2.2.2.2.2.2,
          ← List.cons_append, ← hcr, parseIntTok_intRepr n rest hrest]
        rfl
      | jstr s =>
        have hgood : goodStrB s = true := hwf
        rw [show pydumpsV ind (.jstr s) = dumpStrJ s from rfl,
          dumpStrJ_good s hgood, List.cons_append, List.append_assoc,
          List.singleton_append, pParseV_cons_quote,
          parseStringBody_good s.data hgood rest]
        rfl
      | jarr xs =>
        cases xs with
        | nil =>
          rw [show pydumpsV ind (.jarr []) ++ rest
              = '[' :: ']' :: rest from rfl]
          exact pParseV_arr_empty f rest
        | cons x xs' =>
          have hwl : wfV x = true ∧ wfL xs' = true := by
            have h0 : wfV (.jarr (x :: xs')) = (wfV x && wfL xs') := rfl
            rw [h0] at hwf
            simpa [Bool.and_eq_true] using hwf
          have hfl : jsizeL (x :: xs') ≤ f := by
            have h0 : jsizeV (.jarr (x :: xs')) = 1 + jsizeL (x :: xs') :=
              rfl
            omega
          have hhx := pydumpsV_chunkGood (ind + 2) x
          have hshape : pydumpsV ind (.jarr (x :: xs')) ++ rest
              = '[' :: (('\n' :: spaces (ind + 2)) ++
                (pydumpsV (ind + 2) x ++
                  (arrBody (ind + 2) (pydumpsList (ind + 2) xs') ++
                    ('\n' :: spaces ind ++ (']' :: rest))))) := by
            rw [show pydumpsV ind (.jarr (x :: xs'))
                = assembleArr ind (pydumpsV (ind + 2) x
                  :: pydumpsList (ind + 2) xs') from rfl, assembleArr]
            simp [List.append_assoc]
          rw [hshape, pParseV_cons_lbrack]
          have hr1 : skipWs (('\n' :: spaces (ind + 2)) ++
              (pydumpsV (ind + 2) x ++
                (arrBody (ind + 2) (pydumpsList (ind + 2) xs') ++
                  ('\n' :: spaces ind ++ (']' :: rest)))))
              = pydumpsV (ind + 2) x ++
                (arrBody (ind + 2) (pydumpsList (ind + 2) xs') ++
                  ('\n' :: spaces ind ++ (']' :: rest))) := by
            rw [skipWs_append_ws _ _ (mem_nl_spaces_ws (ind + 2))]
            apply skipWs_head_not_ws
            intro y hy
            rw [head?_append_ne_nil _ _ hhx.1.2.2] at hy
            exact jsonWs_false_of_isPyWs_false (hhx.2 y hy)
          simp only [hr1]
          rw [if_neg ?hne]
          case hne =>
            intro hcon
            rw [head?_append_ne_nil _ _ hhx.1.2.2] at hcon
            rcases pydumpsV_head_spec (ind + 2) x ']' hcon with
              h|h|h|h|h|h|h|h <;> exact absurd h (by decide)
          rw [ihI x xs' (ind + 2) ind rest hwl.1 hwl.2 hfl]
          rfl
      | jobj kvs =>
        cases kvs with
        | nil =>
          rw [show pydumpsV ind (.jobj []) ++ rest
              = '\x7b' :: '\x7d' :: rest from rfl]
          exact pParseV_obj_empty f rest
        | cons kv kvs' =>
          have hwf2 : wfE (kv :: kvs') = true := by
            have h0 : wfV (.jobj (kv :: kvs'))
                = (nodupKeysB (kv :: kvs') && wfE (kv :: kvs')) := rfl
            rw [h0] at hwf
            simp only [Bool.and_eq_true] at hwf
            exact hwf.2
          cases hes : sortPairsByKey (kv :: kvs') with
          | nil =>
            exfalso
            rw [sortPairsByKey] at hes
            exact insByKey_ne_nil kv _ hes
          | cons p es2 =>
            obtain ⟨k1, v1⟩ := p
            have hwe2 := wfE_sort (kv :: kvs') hwf2
            rw [hes] at hwe2
            rw [show wfE ((k1, v1) :: es2)
                = (goodStrB k1 && wfV v1 && wfE es2) from rfl] at hwe2
            simp only [Bool.and_eq_true] at hwe2
            have hsz2 : jsizeE ((k1, v1) :: es2) ≤ f := by
              have h1 := jsizeE_sort (kv :: kvs')
              rw [hes] at h1
              have h2 : jsizeV (.jobj (kv :: kvs'))
                  = 1 + jsizeE (kv :: kvs') := rfl
              omega
            have hqs := dumpStrJ_chunk k1
            have hshape : pydumpsV ind (.jobj (kv :: kvs')) ++ rest
                = '\x7b' :: (('\n' :: spaces (ind + 2)) ++
                  (dumpStrJ k1 ++ (':' :: ' ' :: (pydumpsV (ind + 2) v1 ++
                    (objBody (ind + 2) (pydumpsEntries (ind + 2) es2) ++
                      ('\n' :: spaces ind ++ ('\x7d' :: rest))))))) := by
              rw [show pydumpsV ind (.jobj (kv :: kvs'))
                  = assembleObj ind (sortPairsByKey
                    (pydumpsEntries (ind + 2) (kv :: kvs'))) from rfl,
                pydumpsEntries_sort, hes,
                show pydumpsEntries (ind + 2) ((k1, v1) :: es2)
                  = (k1, pydumpsV (ind + 2) v1)
                    :: pydumpsEntries (ind + 2) es2 from rfl,
                assembleObj]
              simp [List.append_assoc]
            rw [hshape, pParseV_cons_lbrace]
            have hr1 : skipWs (('\n' :: spaces (ind + 2)) ++
                (dumpStrJ k1 ++ (':' :: ' ' :: (pydumpsV (ind + 2) v1 ++
                  (objBody (ind + 2) (pydumpsEntries (ind + 2) es2) ++
                    ('\n' :: spaces ind ++ ('\x7d' :: rest)))))))
                = dumpStrJ k1 ++ (':' :: ' ' :: (pydumpsV (ind + 2) v1 ++
                  (objBody (ind + 2) (pydumpsEntries (ind + 2) es2) ++
                    ('\n' :: spaces ind ++ ('\x7d' :: rest))))) := by
              rw [skipWs_append_ws _ _ (mem_nl_spaces_ws (ind + 2))]
              apply skipWs_head_not_ws
              intro y hy
              rw [head?_append_ne_nil _ _ hqs.1.2.2] at hy
              exact jsonWs_false_of_isPyWs_false (hqs.2 y hy)
            simp only [hr1]
            rw [if_neg ?hne2]
            case hne2 =>
              intro hcon
              rw [head?_append_ne_nil _ _ hqs.1.2.2] at hcon
              have h0 : (dumpStrJ k1).head? = some '"' := rfl
              have := h0.symm.trans hcon
              injection this with h
              exact absurd h (by decide)
            rw [ihE k1 v1 es2 (ind + 2) ind rest hwe2.1.1 hwe2.1.2
              hwe2.2 hsz2]
            have hnorm : (k1, normV v1) :: normEntries es2
                = sortPairsByKey (normEntries (kv :: kvs')) := by
              rw [normEntries_sort, hes]
              rfl
            rw [show normV (.jobj (kv :: kvs'))
                = .jobj (sortPairsByKey (normEntries (kv :: kvs')))
                from rfl, ← hnorm]
    · intro x xs ind k rest hwx hwxs hsz
      have hx : jsizeV x ≤ f := by
        have h0 : jsizeL (x :: xs) = 1 + jsizeV x + jsizeL xs := rfl
        omega
      simp only [pParseItems]
      cases xs with
      | nil =>
        rw [show arrBody ind (pydumpsList ind ([] : List JVal)) = []
            from rfl, List.nil_append]
        rw [ihV x ind ('\n' :: spaces k ++ (']' :: rest)) hwx hx
          (fun y hy => by injection hy with h; subst h; decide)]
        simp only []
        rw [skipWs_ws_append_cons ('\n' :: spaces k) ']' rest
          (mem_nl_spaces_ws k) (by decide)]
        simp only []
        rw [if_neg (by decide), if_pos (by trivial)]
        rfl
      | cons x2 xs' =>
        have hw2 : wfV x2 = true ∧ wfL xs' = true := by
          have h0 : wfL (x2 :: xs') = (wfV x2 && wfL xs') := rfl
          rw [h0] at hwxs
          simpa [Bool.and_eq_true] using hwxs
        have hsz2 : jsizeL (x2 :: xs') ≤ f := by
          have h0 : jsizeL (x :: x2 :: xs')
              = 1 + jsizeV x + jsizeL (x2 :: xs') := rfl
          omega
        have hbig : arrBody ind (pydumpsList ind (x2 :: xs')) ++
            ('\n' :: spaces k ++ (']' :: rest))
            = ',' :: (('\n' :: spaces ind) ++ (pydumpsV ind x2 ++
              (arrBody ind (pydumpsList ind xs') ++
                ('\n' :: spaces k ++ (']' :: rest))))) := by
          rw [show pydumpsList ind (x2 :: xs')
              = pydumpsV ind x2 :: pydumpsList ind xs' from rfl, arrBody]
          simp [List.append_assoc]
        rw [hbig]
        rw [ihV x ind _ hwx hx
          (fun y hy => by injection hy with h; subst h; decide)]
        simp only []
        rw [skipWs_cons_not_ws ',' _ (by decide)]
        simp only []
        rw [if_pos (by trivial)]
        rw [pParseItems_skipLeadWs f ('\n' :: spaces ind) _
          (mem_nl_spaces_ws ind)]
        rw [ihI x2 xs' ind k rest hw2.1 hw2.2 hsz2]
        rfl
    · intro ky v es ind k rest hky hv hes hsz
      have hvz : jsizeV v ≤ f := by
        have h0 : jsizeE ((ky, v) :: es) = 1 + jsizeV v + jsizeE es := rfl
        omega
      simp only [pParseEntries]
      cases es with
      | nil =>
        have hshape : dumpStrJ ky ++ (':' :: ' ' :: (pydumpsV ind v ++
            (objBody ind (pydumpsEntries ind ([] : List (String × JVal))) ++
              ('\n' :: spaces k ++ ('\x7d' :: rest)))))
            = '"' :: (ky.data ++ ('"' :: (':' :: ' ' :: (pydumpsV ind v ++
              ('\n' :: spaces k ++ ('\x7d' :: rest)))))) := by
          rw [dumpStrJ_good ky hky,
            show objBody ind (pydumpsEntries ind
              ([] : List (String × JVal))) = [] from rfl, List.nil_append]
          simp [List.append_assoc]
        rw [hshape]
        rw [skipWs_cons_not_ws '"' _ (by decide)]
        simp only []
        rw [if_pos (by trivial)]
        rw [parseStringBody_good ky.data hky _]
        simp only []
        rw [skipWs_cons_not_ws ':' _ (by decide)]
        simp only []
        rw [if_pos (by trivial)]
        rw [show ' ' :: (pydumpsV ind v ++
            ('\n' :: spaces k ++ ('\x7d' :: rest)))
            = [' '] ++ (pydumpsV ind v ++
              ('\n' :: spaces k ++ ('\x7d' :: rest))) from rfl]
        rw [pParseV_skipLeadWs f [' '] _
          (by intro c hc; simp at hc; subst hc; decide)]
        rw [ihV v ind ('\n' :: spaces k ++ ('\x7d' :: rest)) hv hvz
          (fun y hy => by injection hy with h; subst h; decide)]
        simp only []
        rw [skipWs_ws_append_cons ('\n' :: spaces k) '\x7d' rest
          (mem_nl_spaces_ws k) (by decide)]
        simp only []
        rw [if_neg (by decide), if_pos (by trivial)]
        rfl
      | cons q es' =>
        obtain ⟨k2, v2⟩ := q
        have hq : goodStrB k2 = true ∧ wfV v2 = true ∧ wfE es' = true := by
          rw [show wfE ((k2, v2) :: es')
              = (goodStrB k2 && wfV v2 && wfE es') from rfl] at hes
          simp only [Bool.and_eq_true] at hes
          exact ⟨hes.1.1, hes.1.2, hes.2⟩
        have hsz2 : jsizeE ((k2, v2) :: es') ≤ f := by
          have h0 : jsizeE ((ky, v) :: (k2, v2) :: es')
              = 1 + jsizeV v + jsizeE ((k2, v2) :: es') := rfl
          have := jsizeV_pos v
          omega
        have hshape : dumpStrJ ky ++ (':' :: ' ' :: (pydumpsV ind v ++
            (objBody ind (pydumpsEntries ind ((k2, v2) :: es')) ++
              ('\n' :: spaces k ++ ('\x7d' :: rest)))))
            = '"' :: (ky.data ++ ('"' :: (':' :: ' ' :: (pydumpsV ind v ++
              (',' :: (('\n' :: spaces ind) ++ (dumpStrJ k2 ++
                (':' :: ' ' :: (pydumpsV ind v2 ++
                  (objBody ind (pydumpsEntries ind es') ++
                    ('\n' :: spaces k ++ ('\x7d' :: rest)))))))))))) := by
          rw [dumpStrJ_good ky hky,
            show pydumpsEntries ind ((k2, v2) :: es')
              = (k2, pydumpsV ind v2) :: pydumpsEntries ind es' from rfl,
            objBody]
          simp [List.append_assoc]
        rw [hshape]
        rw [skipWs_cons_not_ws '"' _ (by decide)]
        simp only []
        rw [if_pos (by trivial)]
        rw [parseStringBody_good ky.data hky _]
        simp only []
        rw [skipWs_cons_not_ws ':' _ (by decide)]
        simp only []
        rw [if_pos (by trivial)]
        rw [show ' ' :: (pydumpsV ind v ++ (',' :: (('\n' :: spaces ind) ++
            (dumpStrJ k2 ++ (':' :: ' ' :: (pydumpsV ind v2 ++
              (objBody ind (pydumpsEntries ind es') ++
                ('\n' :: spaces k ++ ('\x7d' :: rest)))))))))
            = [' '] ++ (pydumpsV ind v ++ (',' :: (('\n' :: spaces ind) ++
              (dumpStrJ k2 ++ (':' :: ' ' :: (pydumpsV ind v2 ++
                (objBody ind (pydumpsEntries ind es') ++
                  ('\n' :: spaces k ++ ('\x7d' :: rest)))))))))
            from rfl]
        rw [pParseV_skipLeadWs f [' '] _
          (by intro c hc; simp at hc; subst hc; decide)]
        rw [ihV v ind _ hv hvz
          (fun y hy => by injection hy with h; subst h; decide)]
        simp only []
        rw [skipWs_cons_not_ws ',' _ (by decide)]
        simp only []
        rw [if_pos (by trivial)]
        rw [pParseEntries_skipLeadWs f ('\n' :: spaces ind) _
          (mem_nl_spaces_ws ind)]
        rw [ihE k2 v2 es' ind k rest hq.1 hq.2.1 hq.2.2 hsz2]
        rfl

theorem parseV_dump (v : JVal) (ind fuel : Nat) (rest : List Char)
    (hwf : wfV v = true) (hsz : jsizeV v ≤ fuel)
    (hrest : ∀ y, rest.head? = some y → y.isDigit = false) :
    pParseV fuel (pydumpsV ind v ++ rest) = some (normV v, rest) :=
  (parse_trio fuel).1 v ind rest hwf hsz hrest

theorem writeRepodataText_eq (v : JVal) :
    writeRepodataText v = pydumps v ++ ['\n'] := by
  unfold writeRepodataText
  have hck := pydumps_chunkGood v
  have hstrip : stripData (pydumps v) = pydumps v :=
    stripData_eq_self _ hck.1.1 hck.1.2.1 hck.1.2.2
  simp only [hstrip]
  rw [if_neg ?hsuf]
  case hsuf =>
    intro hcon
    have hsuf : ['\n'] <:+ pydumps v :=
      List.isSuffixOf_iff_suffix.mp hcon
    obtain ⟨pre, hpre⟩ := hsuf
    have hlast : (pydumps v).getLast? = some '\n' := by
      rw [← hpre]
      exact List.getLast?_concat pre
    have := hck.1.2.1 '\n' hlast
    exact absurd this (by decide)

theorem pyloads_writeRepodataText (v : JVal) (hwf : wfV v = true) :
    pyloads (String.mk (writeRepodataText v)) = some (normV v) := by
  unfold pyloads
  rw [show (String.mk (writeRepodataText v)).data
      = writeRepodataText v from rfl, writeRepodataText_eq,
    show pydumps v = pydumpsV 0 v from rfl]
  rw [parseV_dump v 0 ((pydumpsV 0 v ++ ['\n']).length + 1) ['\n'] hwf
    ?hfz ?hdz]
  case hfz =>
    have h1 := jsizeV_le_dumps 0 v
    have h2 : (pydumpsV 0 v ++ ['\n']).length
        = (pydumpsV 0 v).length + 1 := by simp
    omega
  case hdz =>
    intro y hy
    injection hy with h
    subst h
    decide
  simp only []
  rw [show skipWs ['\n'] = [] from rfl, if_pos (by trivial)]

/-! ### The parsed result is key-sorted and carries the same mapping -/

theorem charListLt_asymm : ∀ (a b : List Char),
    charListLt a b = true → charListLt b a = false
  | [], [] => by simp [charListLt]
  | [], _ :: _ => by simp [charListLt]
  | _ :: _, [] => by simp [charListLt]
  | x :: xs, y :: ys => by
    intro h
    rw [charListLt] at h ⊢
    simp only [Bool.or_eq_true, Bool.and_eq_true, decide_eq_true_eq] at h
    rcases h with h1 | ⟨h2, h3⟩
    · have hyx : ¬ y < x := lt_asymm h1
      have hyx2 : ¬ y = x := fun he => absurd (he ▸ h1) (lt_irrefl x)
      simp [hyx, hyx2]
    · have ihr := charListLt_asymm xs ys h3
      subst h2
      simp [lt_irrefl, ihr]

theorem strLtB_asymm (a b : String) (h : strLtB a b = true) :
    strLtB b a = false :=
  charListLt_asymm a.data b.data h

theorem sortedByKeyB_insByKey {β : Type} (x : String × β)
    (l : List (String × β)) (hl : sortedByKeyB l = true) :
    sortedByKeyB (insByKey x l) = true := by
  induction l with
  | nil => rfl
  | cons y ys ih =>
    rw [insByKey]
    by_cases h : strLtB y.1 x.1 = true
    · rw [if_pos h]
      have hys : sortedByKeyB ys = true := by
        cases ys with
        | nil => rfl
        | cons z zs =>
          rw [sortedByKeyB] at hl
          simp only [Bool.and_eq_true] at hl
          exact hl.2
      have hins := ih hys
      cases hi : insByKey x ys with
      | nil => exact absurd hi (insByKey_ne_nil x ys)
      | cons z zs =>
        rw [sortedByKeyB]
        rw [hi] at hins
        simp only [Bool.and_eq_true]
        refine ⟨?_, hins⟩
        cases ys with
        | nil =>
          rw [insByKey] at hi
          injection hi with h1 h2
          subst h1
          simp [strLtB_asymm _ _ h]
        | cons w ws =>
          rw [insByKey] at hi
          by_cases h2 : strLtB w.1 x.1 = true
          · rw [if_pos h2] at hi
            injection hi with h1 _
            subst h1
            rw [sortedByKeyB] at hl
            simp only [Bool.and_eq_true] at hl
            simpa using hl.1
          · rw [if_neg h2] at hi
            injection hi with h1 _
            subst h1
            simp [strLtB_asymm _ _ h]
    · rw [if_neg h]
      rw [sortedByKeyB]
      simp only [Bool.and_eq_true]
      exact ⟨by simpa using h, hl⟩

theorem sortedByKeyB_sort {β : Type} (l : List (String × β)) :
    sortedByKeyB (sortPairsByKey l) = true := by
  induction l with
  | nil => rfl
  | cons p rest ih =>
    rw [sortPairsByKey]
    exact sortedByKeyB_insByKey p _ ih

theorem isNormalE_iff (es : List (String × JVal)) :
    isNormalE es = true ↔ ∀ p ∈ es, isNormalV p.2 = true := by
  induction es with
  | nil => simp [isNormalE]
  | cons p rest ih =>
    obtain ⟨k, v⟩ := p
    rw [show isNormalE ((k, v) :: rest)
        = (isNormalV v && isNormalE rest) from rfl]
    simp only [Bool.and_eq_true, List.mem_cons, ih]
    constructor
    · rintro ⟨h1, h2⟩ q hq
      rcases hq with h | h
      · subst h
        exact h1
      · exact h2 q h
    · intro h
      exact ⟨h (k, v) (Or.inl rfl), fun q hq => h q (Or.inr hq)⟩

mutual

theorem isNormalV_normV : ∀ (v : JVal), isNormalV (normV v) = true
  | .jnull => rfl
  | .jbool b => by cases b <;> rfl
  | .jnum n => rfl
  | .jstr s => rfl
  | .jarr xs => by
    rw [show normV (.jarr xs) = .jarr (normList xs) from rfl,
      show isNormalV (.jarr (normList xs)) = isNormalL (normList xs)
      from rfl]
    exact isNormalL_normList xs
  | .jobj kvs => by
    rw [show normV (.jobj kvs)
        = .jobj (sortPairsByKey (normEntries kvs)) from rfl,
      show isNormalV (.jobj (sortPairsByKey (normEntries kvs)))
        = (sortedByKeyB (sortPairsByKey (normEntries kvs)) &&
          isNormalE (sortPairsByKey (normEntries kvs))) from rfl,
      sortedByKeyB_sort]
    have h1 := isNormalE_normEntries kvs
    have h2 : isNormalE (sortPairsByKey (normEntries kvs)) = true := by
      rw [isNormalE_iff] at h1 ⊢
      intro p hp
      exact h1 p ((sortPairsByKey_mem p _).mp hp)
    rw [h2]
    rfl

theorem isNormalL_normList : ∀ (xs : List JVal),
    isNormalL (normList xs) = true
  | [] => rfl
  | x :: rest => by
    rw [show normList (x :: rest) = normV x :: normList rest from rfl,
      show isNormalL (normV x :: normList rest)
        = (isNormalV (normV x) && isNormalL (normList rest)) from rfl,
      isNormalV_normV x, isNormalL_normList rest]
    rfl

theorem isNormalE_normEntries : ∀ (kvs : List (String × JVal)),
    isNormalE (normEntries kvs) = true
  | [] => rfl
  | (k, v) :: rest => by
    rw [show normEntries ((k, v) :: rest)
        = (k, normV v) :: normEntries rest from rfl,
      show isNormalE ((k, normV v) :: normEntries rest)
        = (isNormalV (normV v) && isNormalE (normEntries rest)) from rfl,
      isNormalV_normV v, isNormalE_normEntries rest]
    rfl

end

theorem any_sortPairsByKey {β : Type} (l : List (String × β))
    (pred : String × β → Bool) :
    (sortPairsByKey l).any pred = l.any pred := by
  rw [Bool.eq_iff_iff, List.any_eq_true, List.any_eq_true]
  constructor
  · rintro ⟨q, hq, hpq⟩
    exact ⟨q, (sortPairsByKey_mem q l).mp hq, hpq⟩
  · rintro ⟨q, hq, hpq⟩
    exact ⟨q, (sortPairsByKey_mem q l).mpr hq, hpq⟩

theorem any_key_normEntries (k : String) (l : List (String × JVal)) :
    (normEntries l).any (fun q => q.1 = k)
      = l.any (fun q => q.1 = k) := by
  induction l with
  | nil => rfl
  | cons p rest ih =>
    obtain ⟨k2, v2⟩ := p
    rw [show normEntries ((k2, v2) :: rest)
        = (k2, normV v2) :: normEntries rest from rfl,
      List.any_cons, List.any_cons, ih]

theorem nodupKeysB_normEntries (l : List (String × JVal)) :
    nodupKeysB (normEntries l) = nodupKeysB l := by
  induction l with
  | nil => rfl
  | cons p rest ih =>
    obtain ⟨k, v⟩ := p
    rw [show normEntries ((k, v) :: rest)
        = (k, normV v) :: normEntries rest from rfl,
      show nodupKeysB ((k, normV v) :: normEntries rest)
        = (!((normEntries rest).any fun q => q.1 = k) &&
          nodupKeysB (normEntries rest)) from rfl,
      show nodupKeysB ((k, v) :: rest)
        = (!(rest.any fun q => q.1 = k) && nodupKeysB rest) from rfl,
      any_key_normEntries, ih]

theorem any_key_insByKey {β : Type} (k : String) (x : String × β)
    (l : List (String × β)) :
    (insByKey x l).any (fun q => q.1 = k)
      = (decide (x.1 = k) || l.any (fun q => q.1 = k)) := by
  induction l with
  | nil =>
    rw [insByKey]
    simp
  | cons y ys ih =>
    rw [insByKey]
    by_cases h : strLtB y.1 x.1 = true
    · rw [if_pos h]
      rw [List.any_cons, ih, List.any_cons]
      rw [Bool.or_left_comm]
    · rw [if_neg h]
      rw [List.any_cons]

theorem nodupKeysB_insByKey {β : Type} (x : String × β)
    (l : List (String × β))
    (hx : l.any (fun q => q.1 = x.1) = false)
    (hl : nodupKeysB l = true) : nodupKeysB (insByKey x l) = true := by
  induction l with
  | nil =>
    rw [insByKey]
    simp [nodupKeysB]
  | cons y ys ih =>
    rw [List.any_cons] at hx
    simp only [Bool.or_eq_false_iff] at hx
    rw [show nodupKeysB (y :: ys)
        = (!(ys.any fun q => q.1 = y.1) && nodupKeysB ys) from rfl] at hl
    simp only [Bool.and_eq_true, Bool.not_eq_true'] at hl
    rw [insByKey]
    by_cases h : strLtB y.1 x.1 = true
    · rw [if_pos h]
      rw [show nodupKeysB (y :: insByKey x ys)
          = (!((insByKey x ys).any fun q => q.1 = y.1) &&
            nodupKeysB (insByKey x ys)) from rfl]
      simp only [Bool.and_eq_true, Bool.not_eq_true']
      refine ⟨?_, ih hx.2 hl.2⟩
      rw [any_key_insByKey]
      simp only [Bool.or_eq_false_iff]
      refine ⟨?_, hl.1⟩
      simp only [decide_eq_false_iff_not]
      intro hcon
      rw [decide_eq_false_iff_not] at *
      exact hx.1 hcon.symm
    · rw [if_neg h]
      rw [show nodupKeysB (x :: y :: ys)
          = (!((y :: ys).any fun q => q.1 = x.1) &&
            nodupKeysB (y :: ys)) from rfl]
      simp only [Bool.and_eq_true, Bool.not_eq_true', List.any_cons,
        Bool.or_eq_false_iff]
      refine ⟨⟨hx.1, hx.2⟩, ?_⟩
      rw [show nodupKeysB (y :: ys)
          = (!(ys.any fun q => q.1 = y.1) && nodupKeysB ys) from rfl]
      simp only [Bool.and_eq_true, Bool.not_eq_true']
      exact hl

theorem nodupKeysB_sort {β : Type} (l : List (String × β))
    (h : nodupKeysB l = true) :
    nodupKeysB (sortPairsByKey l) = true := by
  induction l with
  | nil => rfl
  | cons p rest ih =>
    rw [sortPairsByKey]
    rw [show nodupKeysB (p :: rest)
        = (!(rest.any fun q => q.1 = p.1) && nodupKeysB rest) from rfl] at h
    simp only [Bool.and_eq_true, Bool.not_eq_true'] at h
    apply nodupKeysB_insByKey
    · rw [any_sortPairsByKey]
      exact h.1
    · exact ih h.2

theorem lookupJ_eq_of_mem_nodup (es : List (String × JVal))
    (hnd : nodupKeysB es = true) (k : String) (v : JVal)
    (hm : (k, v) ∈ es) : lookupJ k es = some v := by
  induction es with
  | nil => simp at hm
  | cons p rest ih =>
    obtain ⟨k2, v2⟩ := p
    rw [show nodupKeysB ((k2, v2) :: rest)
        = (!(rest.any fun q => q.1 = k2) && nodupKeysB rest) from rfl]
      at hnd
    simp only [Bool.and_eq_true, Bool.not_eq_true'] at hnd
    rw [lookupJ]
    rcases List.mem_cons.mp hm with h | h
    · injection h with h1 h2
      subst h1
      subst h2
      rw [if_pos rfl]
    · by_cases hk : k = k2
      · exfalso
        subst hk
        have : rest.any (fun q => q.1 = k) = true := by
          rw [List.any_eq_true]
          exact ⟨(k, v), h, by simp⟩
        rw [this] at hnd
        exact absurd hnd.1 (by simp)
      · rw [if_neg hk]
        exact ih hnd.2 h

theorem mem_normEntries_of_mem {k : String} {v : JVal}
    {l : List (String × JVal)} (h : (k, v) ∈ l) :
    (k, normV v) ∈ normEntries l := by
  induction l with
  | nil => simp at h
  | cons p rest ih =>
    obtain ⟨k2, v2⟩ := p
    rw [show normEntries ((k2, v2) :: rest)
        = (k2, normV v2) :: normEntries rest from rfl]
    rcases List.mem_cons.mp h with h1 | h1
    · injection h1 with ha hb
      subst ha
      subst hb
      exact List.mem_cons_self _ _
    · exact List.mem_cons_of_mem _ (ih h1)

theorem mem_normEntries_ex {p : String × JVal}
    {l : List (String × JVal)} (h : p ∈ normEntries l) :
    ∃ q ∈ l, p = (q.1, normV q.2) := by
  induction l with
  | nil => simp [normEntries] at h
  | cons q rest ih =>
    obtain ⟨k2, v2⟩ := q
    rw [show normEntries ((k2, v2) :: rest)
        = (k2, normV v2) :: normEntries rest from rfl] at h
    rcases List.mem_cons.mp h with h1 | h1
    · exact ⟨(k2, v2), List.mem_cons_self _ _, h1⟩
    · obtain ⟨q, hq, he⟩ := ih h1
      exact ⟨q, List.mem_cons_of_mem _ hq, he⟩

theorem lookupJ_isSome_of_key (es : List (String × JVal)) (k : String)
    (v : JVal) (h : (k, v) ∈ es) : (lookupJ k es).isSome = true := by
  induction es with
  | nil => simp at h
  | cons p rest ih =>
    obtain ⟨k2, v2⟩ := p
    rw [lookupJ]
    by_cases hk : k = k2
    · rw [if_pos hk]
      rfl
    · rw [if_neg hk]
      rcases List.mem_cons.mp h with h1 | h1
      · injection h1 with ha hb
        exact absurd ha hk
      · exact ih h1

mutual

theorem sameMapV_normV : ∀ (v : JVal), wfV v = true →
    sameMapV v (normV v) = true
  | .jnull, _ => rfl
  | .jbool b, _ => by cases b <;> rfl
  | .jnum n, _ => by
    rw [show normV (.jnum n) = .jnum n from rfl,
      show sameMapV (.jnum n) (.jnum n) = decide (n = n) from rfl]
    simp
  | .jstr s, _ => by
    rw [show normV (.jstr s) = .jstr s from rfl,
      show sameMapV (.jstr s) (.jstr s) = decide (s = s) from rfl]
    simp
  | .jarr xs, hwf => by
    rw [show normV (.jarr xs) = .jarr (normList xs) from rfl,
      show sameMapV (.jarr xs) (.jarr (normList xs))
        = sameMapL xs (normList xs) from rfl]
    exact sameMapL_normList xs hwf
  | .jobj kvs, hwf => by
    have hnd : nodupKeysB kvs = true ∧ wfE kvs = true := by
      rw [show wfV (.jobj kvs)
          = (nodupKeysB kvs && wfE kvs) from rfl] at hwf
      simpa [Bool.and_eq_true] using hwf
    have hndS : nodupKeysB (sortPairsByKey (normEntries kvs)) = true := by
      apply nodupKeysB_sort
      rw [nodupKeysB_normEntries]
      exact hnd.1
    rw [show normV (.jobj kvs)
        = .jobj (sortPairsByKey (normEntries kvs)) from rfl,
      show sameMapV (.jobj kvs) (.jobj (sortPairsByKey (normEntries kvs)))
        = (sameMapE kvs (sortPairsByKey (normEntries kvs)) &&
          keysSubB (sortPairsByKey (normEntries kvs)) kvs) from rfl]
    have h1 : sameMapE kvs (sortPairsByKey (normEntries kvs)) = true := by
      apply sameMapE_normAll kvs (sortPairsByKey (normEntries kvs)) hnd.2
      intro k0 v0 h0
      exact lookupJ_eq_of_mem_nodup _ hndS k0 (normV v0)
        ((sortPairsByKey_mem _ _).mpr (mem_normEntries_of_mem h0))
    have h2 : keysSubB (sortPairsByKey (normEntries kvs)) kvs = true := by
      unfold keysSubB
      rw [List.all_eq_true]
      intro p hp
      obtain ⟨q, hq, he⟩ :=
        mem_normEntries_ex ((sortPairsByKey_mem p _).mp hp)
      subst he
      exact lookupJ_isSome_of_key kvs q.1 q.2 (by simpa using hq)
    rw [h1, h2]
    rfl

theorem sameMapL_normList : ∀ (xs : List JVal), wfL xs = true →
    sameMapL xs (normList xs) = true
  | [], _ => rfl
  | x :: rest, hwf => by
    have h2 : wfV x = true ∧ wfL rest = true := by
      rw [show wfL (x :: rest) = (wfV x && wfL rest) from rfl] at hwf
      simpa [Bool.and_eq_true] using hwf
    rw [show normList (x :: rest) = normV x :: normList rest from rfl,
      show sameMapL (x :: rest) (normV x :: normList rest)
        = (sameMapV x (normV x) && sameMapL rest (normList rest))
        from rfl,
      sameMapV_normV x h2.1, sameMapL_normList rest h2.2]
    rfl

theorem sameMapE_normAll : ∀ (kvs : List (String × JVal))
    (es2 : List (String × JVal)), wfE kvs = true →
    (∀ (k : String) (v : JVal), (k, v) ∈ kvs →
      lookupJ k es2 = some (normV v)) →
    sameMapE kvs es2 = true
  | [], _, _, _ => rfl
  | (k, v) :: rest, es2, hwf, hlk => by
    have h2 : wfV v = true ∧ wfE rest = true := by
      rw [show wfE ((k, v) :: rest)
          = (goodStrB k && wfV v && wfE rest) from rfl] at hwf
      simp only [Bool.and_eq_true] at hwf
      exact ⟨hwf.1.2, hwf.2⟩
    rw [show sameMapE ((k, v) :: rest) es2
        = ((match lookupJ k es2 with
            | some w => sameMapV v w
            | none => false) && sameMapE rest es2) from rfl,
      hlk k v (List.mem_cons_self _ _)]
    simp only []
    rw [sameMapV_normV v h2.1,
      sameMapE_normAll rest es2 h2.2
        (fun k0 v0 h0 => hlk k0 v0 (List.mem_cons_of_mem _ h0))]
    rfl

end

theorem splitOnCh_snoc_sep (sep : Char) (l : List Char) :
    splitOnCh sep (l ++ [sep]) = splitOnCh sep l ++ [[]] := by
  induction l with
  | nil =>
    rw [List.nil_append, splitOnCh_cons_sep]
    rfl
  | cons c rest ih =>
    by_cases h : c = sep
    · subst h
      rw [List.cons_append, splitOnCh_cons_sep, splitOnCh_cons_sep, ih]
      rfl
    · rw [List.cons_append]
      cases hsp : splitOnCh sep rest with
      | nil => exact absurd hsp (splitOnCh_ne_nil _ _)
      | cons g gs =>
        have hsp2 : splitOnCh sep (rest ++ [sep]) = g :: (gs ++ [[]]) := by
          rw [ih, hsp]
          rfl
        rw [splitOnCh_cons_ne sep c _ h hsp2,
          splitOnCh_cons_ne sep c rest h hsp]
        rfl

theorem pysplitlinesNl_snoc_nl (l : List Char) :
    pysplitlinesNl (l ++ ['\n']) = splitOnCh '\n' l := by
  unfold pysplitlinesNl
  rw [if_neg (by simp)]
  simp only [splitOnCh_snoc_sep]
  rw [if_pos (List.getLast?_concat _), List.dropLast_concat]

/-- C6: for every well-formed index value, `_write_repodata` writes the
deterministic key-sorted serialization whose every line is already
right-stripped, with exactly one trailing newline; `json.loads` on that
text returns the key-sorted normal form, which carries the same
filename-to-attribute mapping order-independently; and the compressed
companion decompresses to the exact written text. -/
theorem c6_repodata_roundtrip (v : JVal) (hwf : wfV v = true)
    (compress decompress : List Char → List Char)
    (hcodec : ∀ l, decompress (compress l) = l) :
    (∀ line ∈ pysplitlinesNl (writeRepodataModel compress v).1,
      pyrstripWs line = line) ∧
    (∃ body, (writeRepodataModel compress v).1 = body ++ ['\n'] ∧
      body.getLast? ≠ some '\n') ∧
    pyloads (String.mk (writeRepodataModel compress v).1)
      = some (normV v) ∧
    sameMapV v (normV v) = true ∧
    isNormalV (normV v) = true ∧
    decompress (writeRepodataModel compress v).2
      = (writeRepodataModel compress v).1 := by
  have hck := pydumps_chunkGood v
  have h1 : (writeRepodataModel compress v).1 = writeRepodataText v := rfl
  refine ⟨?_, ?_, ?_, ?_, ?_, ?_⟩
  · intro line hline
    rw [h1, writeRepodataText_eq, pysplitlinesNl_snoc_nl] at hline
    exact lines_rstrip_id (pydumps v) hck.1.1 hck.1.2.1 line hline
  · refine ⟨pydumps v, by rw [h1, writeRepodataText_eq], ?_⟩
    intro hcon
    have := hck.1.2.1 '\n' hcon
    exact absurd this (by decide)
  · rw [h1]
    exact pyloads_writeRepodataText v hwf
  · exact sameMapV_normV v hwf
  · exact isNormalV_normV v
  · rw [show (writeRepodataModel compress v).2
        = compress (writeRepodataText v) from rfl, hcodec, h1]

set_option maxRecDepth 100000 in
/-- C7, counterexamples to the original claim: a dry run returns before
the noarch block, so a fresh target root still has no noarch directory
after it; and a non-dry run that mirrors the `noarch` platform itself
ends with the noarch directory holding the pruned mirrored index — with
the upstream info and the mirrored package — which differs from the
empty-info, empty-packages text the claim promises. -/
theorem c7_noarch_counterexample :
    ((mainTailPlat "linux-64" true c7Env c7Info c7Packages
        ["a-1.0-0.tar.bz2"] [] ⟨false, none⟩).1).noarchExists = false ∧
    ((mainTailPlat "noarch" false c7Env c7Info c7Packages
        ["a-1.0-0.tar.bz2"] [] ⟨false, none⟩).1).noarchRepodata
      = some (writeRepodataText
          (prunedRepodata c7Info c7Packages ["a-1.0-0.tar.bz2"])) ∧
    writeRepodataText (prunedRepodata c7Info c7Packages
        ["a-1.0-0.tar.bz2"])
      ≠ writeRepodataText emptyRepodata :=
  ⟨rfl, rfl, by decide⟩

set_option maxRecDepth 10000 in
/-- C7 (amended): after every run without `--dry-run` the target root
has a noarch directory, whatever the download loop did.  When the
mirrored platform is not `noarch`, the download phase never touches
that directory: it is created holding exactly the `_write_repodata`
text of `{"info": {}, "packages": {}}` — which parses back to the
empty-info, empty-packages index — when it was absent, and an existing
one is left untouched.  When the mirrored platform is `noarch` itself,
the directory is the mirror target: it ends holding the pruned mirrored
index written by the final checkpoint, so its content is not
platform-independent.  The run still returns the download-phase
summary. -/
theorem c7_noarch_after_non_dry_run (platform : String) (env : LoopEnv)
    (info : JVal) (packages : List (String × JVal))
    (toMirror localFiles : List String) (fs : TargetFS) :
    ((mainTailPlat platform false env info packages toMirror localFiles
        fs).1).noarchExists = true ∧
    (platform ≠ "noarch" → fs.noarchExists = false →
      ((mainTailPlat platform false env info packages toMirror localFiles
          fs).1).noarchRepodata
        = some (writeRepodataText emptyRepodata)) ∧
    (platform ≠ "noarch" → fs.noarchExists = true →
      (mainTailPlat platform false env info packages toMirror localFiles
          fs).1 = fs) ∧
    ((mainTailPlat platform false env info packages toMirror localFiles
        fs).1).noarchRepodata
      = (if platform = "noarch" then
          some (writeRepodataText (prunedRepodata info packages
            (downloadPhase env toMirror localFiles).1.localFiles))
        else if fs.noarchExists then fs.noarchRepodata
        else some (writeRepodataText emptyRepodata)) ∧
    (mainTailPlat platform false env info packages toMirror localFiles
        fs).2 = some (downloadPhase env toMirror localFiles) ∧
    pyloads (String.mk (writeRepodataText emptyRepodata))
      = some (.jobj [("info", .jobj []), ("packages", .jobj [])]) := by
  have hmt : mainTailPlat platform false env info packages toMirror
      localFiles fs
      = (noarchStep (if platform = "noarch" then
          ⟨true, some (writeRepodataText (prunedRepodata info packages
            (downloadPhase env toMirror localFiles).1.localFiles))⟩
          else fs),
        some (downloadPhase env toMirror localFiles)) := rfl
  rw [hmt]
  by_cases hp : platform = "noarch"
  · rw [if_pos hp, if_pos hp]
    refine ⟨rfl, ?_, ?_, rfl, rfl, rfl⟩
    · intro hne _
      exact absurd hp hne
    · intro hne _
      exact absurd hp hne
  · rw [if_neg hp, if_neg hp]
    refine ⟨?_, ?_, ?_, ?_, rfl, rfl⟩
    · unfold noarchStep
      by_cases h : fs.noarchExists = true
      · rw [if_pos h]
        exact h
      · rw [if_neg h]
    · intro _ hfalse
      unfold noarchStep
      rw [if_neg (by simp [hfalse])]
    · intro _ htrue
      unfold noarchStep
      rw [if_pos htrue]
    · unfold noarchStep
      by_cases h : fs.noarchExists = true
      · rw [if_pos h, if_pos h]
      · rw [if_neg h, if_neg h]

/-- C7: the amended theorem holds on a concrete all-green linux-64 run
over a target root that lacked noarch. -/
theorem c7_noarch_after_non_dry_run_witness :
    (((mainTailPlat "linux-64" false c7Env c7Info c7Packages
        ["a-1.0-0.tar.bz2"] [] ⟨false, none⟩).1).noarchExists = true ∧
      (("linux-64" : String) ≠ "noarch" → (false : Bool) = false →
        ((mainTailPlat "linux-64" false c7Env c7Info c7Packages
          ["a-1.0-0.tar.bz2"] [] ⟨false, none⟩).1).noarchRepodata
          = some (writeRepodataText emptyRepodata)) ∧
      (("linux-64" : String) ≠ "noarch" → (false : Bool) = true →
        (mainTailPlat "linux-64" false c7Env c7Info c7Packages
          ["a-1.0-0.tar.bz2"] [] ⟨false, none⟩).1 = ⟨false, none⟩) ∧
      ((mainTailPlat "linux-64" false c7Env c7Info c7Packages
          ["a-1.0-0.tar.bz2"] [] ⟨false, none⟩).1).noarchRepodata
        = (if ("linux-64" : String) = "noarch" then
            some (writeRepodataText (prunedRepodata c7Info c7Packages
              (downloadPhase c7Env ["a-1.0-0.tar.bz2"] []).1.localFiles))
          else if (false : Bool) then (none : Option (List Char))
          else some (writeRepodataText emptyRepodata)) ∧
      (mainTailPlat "linux-64" false c7Env c7Info c7Packages
          ["a-1.0-0.tar.bz2"] [] ⟨false, none⟩).2
        = some (downloadPhase c7Env ["a-1.0-0.tar.bz2"] []) ∧
      pyloads (String.mk (writeRepodataText emptyRepodata))
        = some (.jobj [("info", .jobj []), ("packages", .jobj [])])) :=
  c7_noarch_after_non_dry_run "linux-64" c7Env c7Info c7Packages
    ["a-1.0-0.tar.bz2"] [] ⟨false, none⟩

/-- C9: each of the three abort conditions breaks the loop immediately,
returning the state reached so far with its reason — the remaining
packages are not downloaded; the final validate-and-move checkpoint runs
regardless of how the loop ended, emptying the download dir and moving
every validated downloaded file into the local directory, and the
partial summary is returned; concretely, a fetch failure on b-1.0-0
(after its retries) still moves the already-downloaded a-1.0-0 into the
target, and likewise when the temp or target filesystem falls below the
threshold. -/
theorem c9_abort_still_checkpoints (env : LoopEnv) (i : Nat)
    (name : String) (rest : List String) (st : MirrorState)
    (toMirror localFiles : List String) :
    (env.tempFree i < env.minFreeSpace →
      mirrorLoop env i (name :: rest) st = (st, some .tempDiskLow)) ∧
    (¬ env.tempFree i < env.minFreeSpace →
      env.fetch name = .error () →
      mirrorLoop env i (name :: rest) st = (st, some .downloadFailed)) ∧
    (∀ bytes, ¬ env.tempFree i < env.minFreeSpace →
      env.fetch name = .ok bytes →
      ((env.targetFree i : Int) - ((st.totalBytes + bytes : Nat) : Int)
        < (env.minFreeSpace : Int)) →
      mirrorLoop env i (name :: rest) st
        = (⟨st.totalBytes + bytes, st.tempFiles ++ [name],
            st.localFiles, st.downloaded⟩, some .targetDiskLow)) ∧
    (downloadPhase env toMirror localFiles).1.tempFiles = [] ∧
    ((downloadPhase env toMirror localFiles).1.localFiles
      = (mirrorLoop env 0 (sortStrings toMirror)
          ⟨0, [], localFiles, []⟩).1.localFiles ++
        (mirrorLoop env 0 (sortStrings toMirror)
          ⟨0, [], localFiles, []⟩).1.tempFiles.filter env.valid) ∧
    ((downloadPhase env toMirror localFiles).2
      = (mirrorLoop env 0 (sortStrings toMirror)
          ⟨0, [], localFiles, []⟩).2) ∧
    downloadPhase c9Env
        ["c-1.0-0.tar.bz2", "a-1.0-0.tar.bz2", "b-1.0-0.tar.bz2"] []
      = (⟨10, [], ["a-1.0-0.tar.bz2"], ["a-1.0-0.tar.bz2"]⟩,
          some .downloadFailed) ∧
    downloadPhase c9DiskEnv ["b-1.0-0.tar.bz2", "a-1.0-0.tar.bz2"] []
      = (⟨10, [], ["a-1.0-0.tar.bz2"], ["a-1.0-0.tar.bz2"]⟩,
          some .tempDiskLow) ∧
    downloadPhase c9TargetEnv ["a-1.0-0.tar.bz2", "b-1.0-0.tar.bz2"] []
      = (⟨10, [], ["a-1.0-0.tar.bz2"], []⟩, some .targetDiskLow) := by
  refine ⟨?_, ?_, ?_, rfl, rfl, rfl, ?_, ?_, ?_⟩
  · intro h
    rw [mirrorLoop, if_pos h]
  · intro h1 h2
    rw [mirrorLoop, if_neg h1, h2]
  · intro bytes h1 h2 h3
    rw [mirrorLoop, if_neg h1, h2]
    simp only []
    rw [if_pos h3]
  · rfl
  · rfl
  · rfl

set_option maxRecDepth 100000 in
theorem c6_repodata_roundtrip_witness :
    wfV c6Value = true ∧
      ((∀ line ∈ pysplitlinesNl (writeRepodataModel id c6Value).1,
        pyrstripWs line = line) ∧
      (∃ body, (writeRepodataModel id c6Value).1 = body ++ ['\n'] ∧
        body.getLast? ≠ some '\n') ∧
      pyloads (String.mk (writeRepodataModel id c6Value).1)
        = some (normV c6Value) ∧
      sameMapV c6Value (normV c6Value) = true ∧
      isNormalV (normV c6Value) = true ∧
      id (writeRepodataModel id c6Value).2
        = (writeRepodataModel id c6Value).1) :=
  ⟨by decide,
    c6_repodata_roundtrip c6Value (by decide) id id (fun l => rfl)⟩

end CondaMirror
